import Mathlib

/-!
Verification of the go-loadbalancer core against its design specification.

This file shallowly embeds the load-balancer's data model and operations:
backends with health/connection/EWMA state, the six selection strategies,
the circuit breaker and its registry, the coordinator
(GetAndReserveServer), the forwarding handler's attempt loop, and the
metrics percentile computation.  Each definition is translated from the
corresponding Go function; Go machine integers are modelled as Nat/Int
(with explicit wraparound where it matters, e.g. the round-robin uint64
counter), Go maps as association lists or total functions with the Go
zero-value as default, and wall-clock time as an explicit Int parameter.
-/

namespace LB

/-- Embeds `backend.Backend` (internal/backend/proxy.go).  Only the fields
the selection/forwarding layer reads are carried: `url`, `isHealthy`,
`activeConnections`, `weight`, and the EWMA pair
(`ewmaResponseTime`, `hasEWMA`).  Durations are nanosecond counts. -/
structure SBackend where
  url : String
  healthy : Bool
  conns : Nat
  weight : Int
  ewma : Int
  hasEWMA : Bool
  deriving DecidableEq, Repr, Inhabited

/-- `Backend.EWMATime`: returns 0 if no responses have been recorded yet,
else the stored EWMA. -/
def SBackend.ewmaTime (b : SBackend) : Int :=
  if !b.hasEWMA then 0 else b.ewma

/-- `Backend.IncrementConn`. -/
def SBackend.incConn (b : SBackend) : SBackend :=
  { b with conns := b.conns + 1 }

/-- `Backend.DecrementConn`: saturating decrement (never below 0). -/
def SBackend.decConn (b : SBackend) : SBackend :=
  if b.conns > 0 then { b with conns := b.conns - 1 } else b

/-- `Backend.RecordResponse`: first sample is stored raw; afterwards
`ewma = 0.8*ewma + 0.2*sample`.  The Go code computes the update in
float64 and truncates back to an integer duration; the multi-sample
branch is modelled by exact integer arithmetic `(4*ewma + sample) / 5`
(no claim in this development depends on the sub-nanosecond rounding of
the float computation; the first-sample branch is exact in both). -/
def SBackend.recordResponse (b : SBackend) (duration : Int) : SBackend :=
  if !b.hasEWMA then
    { b with ewma := duration, hasEWMA := true }
  else
    { b with ewma := (4 * b.ewma + duration) / 5 }

/-! ## Circuit breaker (internal/circuitbreaker/breaker.go) -/

/-- `circuitbreaker.State`: CLOSED / OPEN / HALF-OPEN. -/
inductive CBState where
  | closed
  | open
  | halfOpen
  deriving DecidableEq, Repr

/-- Embeds `circuitbreaker.CircuitBreaker`.  `lastFailure` is an absolute
timestamp; `Allow` and `RecordFailure` take the current time `now`
explicitly (the Go code reads `time.Now()` / `time.Since`). -/
structure CB where
  state : CBState
  failures : Nat
  lastFailure : Int
  failureThreshold : Nat
  resetTimeout : Int
  deriving DecidableEq, Repr

/-- `NewCircuitBreaker(threshold, timeout)`: starts CLOSED with zero
failures. -/
def CB.new (threshold : Nat) (timeout : Int) : CB :=
  { state := .closed, failures := 0, lastFailure := 0,
    failureThreshold := threshold, resetTimeout := timeout }

/-- `CircuitBreaker.Allow` at time `now`: CLOSED returns true; OPEN
transitions to HALF-OPEN and returns true iff `now - lastFailure ≥
resetTimeout`, else returns false; HALF-OPEN returns true. -/
def CB.allow (cb : CB) (now : Int) : Bool × CB :=
  match cb.state with
  | .closed => (true, cb)
  | .open =>
    if now - cb.lastFailure ≥ cb.resetTimeout then
      (true, { cb with state := .halfOpen })
    else
      (false, cb)
  | .halfOpen => (true, cb)

/-- `CircuitBreaker.RecordFailure` at time `now`: increments `failures`,
stamps `lastFailure`, moves HALF-OPEN to OPEN, and moves to OPEN when
`failures ≥ failureThreshold` (both `if`s of the Go code run in order). -/
def CB.recordFailure (cb : CB) (now : Int) : CB :=
  let cb1 := { cb with failures := cb.failures + 1, lastFailure := now }
  let cb2 := if cb1.state = .halfOpen then { cb1 with state := .open } else cb1
  if cb2.failures ≥ cb2.failureThreshold then { cb2 with state := .open } else cb2

/-- `CircuitBreaker.RecordSuccess`: resets `failures` to 0 and the state
to CLOSED, from any state. -/
def CB.recordSuccess (cb : CB) : CB :=
  { cb with failures := 0, state := .closed }

/-! ## Circuit breaker registry (registry source file) -/

/-- Embeds `circuitbreaker.Registry`: a map from backend URL to breaker
(modelled as an association list; `GetBreaker` is create-on-miss), plus
the per-registry threshold and timeout. -/
structure Registry where
  breakers : List (String × CB)
  threshold : Nat
  timeout : Int
  deriving DecidableEq, Repr

/-- `Registry.GetBreaker`: returns the existing breaker for the URL or
inserts a fresh CLOSED one. -/
def Registry.getBreaker (r : Registry) (url : String) : CB × Registry :=
  match r.breakers.lookup url with
  | some cb => (cb, r)
  | none =>
    let cb := CB.new r.threshold r.timeout
    (cb, { r with breakers := (url, cb) :: r.breakers })

/-- Stores an updated breaker back under its URL (models mutation of the
shared `*CircuitBreaker` object held in the registry map). -/
def Registry.putBreaker (r : Registry) (url : String) (cb : CB) : Registry :=
  { r with breakers := (url, cb) :: r.breakers.filter (fun p => p.1 ≠ url) }

/-! ## Strategies (internal/strategy) -/

/-- `2^64`, the modulus of Go's `uint64` round-robin counter. -/
def U64 : Nat := 18446744073709551616

/-- `roundRobinStrategy.SelectBackend`: on a non-empty list, atomically
increments the `uint64` counter (wrapping at `2^64`) to `n` and returns
`backends[(n-1) mod len]`, where `n-1` is computed in `uint64`
arithmetic.  Returns the selected backend and the new counter. -/
def rrSelect (st : Nat) (bs : List SBackend) : Option SBackend × Nat :=
  if bs.length = 0 then (none, st)
  else
    let n := (st + 1) % U64
    let index := ((n + U64 - 1) % U64) % bs.length
    (bs.get? index, n)

/-- Runs `count` consecutive round-robin selections, threading the
counter, and returns the list of results. -/
def rrRun (bs : List SBackend) (st : Nat) : Nat → List (Option SBackend)
  | 0 => []
  | count + 1 =>
    let p := rrSelect st bs
    p.1 :: rrRun bs p.2 count

/-- `randomStrategy.SelectBackend`: `rand.IntN(len)` is modelled by the
oracle `randFn`, which is assumed to return a value `< len`. -/
def randomSelect (randFn : Nat → Nat) (bs : List SBackend) : Option SBackend :=
  if bs.length = 0 then none
  else bs.get? (randFn bs.length)

/-- Go's `math.MaxInt32`, the initial best-connection-count of the
least-connections scan. -/
def maxInt32 : Int := 2147483647

/-- The scan loop of `leastConnStrategy.SelectBackend`: keeps the first
backend whose `activeConnections` is strictly below the best seen so
far (initially `math.MaxInt32`). -/
def leastConnGo : List SBackend → Option SBackend → Int → Option SBackend
  | [], best, _ => best
  | b :: rest, best, bestConns =>
    if (b.conns : Int) < bestConns then leastConnGo rest (some b) (b.conns : Int)
    else leastConnGo rest best bestConns

/-- `leastConnStrategy.SelectBackend`. -/
def leastConnSelect (bs : List SBackend) : Option SBackend :=
  if bs.length = 0 then none
  else leastConnGo bs none maxInt32

/-- The scan loop of `leastResponseStrategy.SelectBackend`: a backend
whose `EWMATime()` reads 0 is returned immediately; otherwise the
backend minimising `ewma * (activeConnections + 1)` is kept, strict
`<`, first in input order on ties. -/
def leastResponseGo : List SBackend → Option SBackend → Int → Option SBackend
  | [], chosen, _ => chosen
  | b :: rest, chosen, best =>
    let ewma := b.ewmaTime
    if ewma = 0 then some b
    else
      let score := ewma * ((b.conns : Int) + 1)
      match chosen with
      | none => leastResponseGo rest (some b) score
      | some c =>
        if score < best then leastResponseGo rest (some b) score
        else leastResponseGo rest (some c) best

/-- `leastResponseStrategy.SelectBackend`. -/
def leastResponseSelect (bs : List SBackend) : Option SBackend :=
  if bs.length = 0 then none
  else leastResponseGo bs none 0

/-! ### Weighted round robin (internal/strategy/weighted_round_robin.go)

The Go strategy keeps `current map[*Backend]int`.  For a fixed candidate
list, backend identity coincides with the position in the list, so the
map is modelled as a total function `Nat → Int` from positions to
accumulated weight (a Go map read of a missing key yields the zero
value, matching the function default).  `cleanup` only deletes entries
of backends absent from the candidate list, which is the identity under
this indexing and is therefore not modelled separately. -/

/-- The single pass of `weightedRoundRobinStrategy.SelectBackend`: for
each backend with positive weight, add its weight to its running
`current`, and track the position with the strictly greatest updated
`current` (first position wins ties, as in the Go loop, which compares
already-updated values).  Returns the updated map, the chosen position,
and the total weight. -/
def wrrScan : List SBackend → Nat → (Nat → Int) → Option Nat → Int →
    ((Nat → Int) × Option Nat × Int)
  | [], _, cur, chosen, tw => (cur, chosen, tw)
  | b :: rest, i, cur, chosen, tw =>
    if b.weight ≤ 0 then wrrScan rest (i + 1) cur chosen tw
    else
      let cur2 := fun m => if m = i then cur i + b.weight else cur m
      let chosen2 :=
        match chosen with
        | none => some i
        | some j => if cur2 i > cur2 j then some i else some j
      wrrScan rest (i + 1) cur2 chosen2 (tw + b.weight)

/-- `weightedRoundRobinStrategy.SelectBackend`: runs the scan, returns
nil when no backend has positive weight (or the list is empty), else
subtracts the total weight from the chosen backend's `current` and
returns its position. -/
def wrrSelect (bs : List SBackend) (cur : Nat → Int) : Option Nat × (Nat → Int) :=
  if bs.length = 0 then (none, cur)
  else
    let r := wrrScan bs 0 cur none 0
    match r.2.1 with
    | none => (none, r.1)
    | some j =>
      if r.2.2 = 0 then (none, r.1)
      else (some j, fun m => if m = j then r.1 j - r.2.2 else r.1 m)

/-- Runs `count` consecutive WRR selections on a fixed candidate list,
threading the `current` map, and accumulates a per-position selection
count vector. -/
def wrrRun (bs : List SBackend) : Nat → (Nat → Int) → List Nat → (Nat → Int) × List Nat
  | 0, cur, counts => (cur, counts)
  | count + 1, cur, counts =>
    let p := wrrSelect bs cur
    let counts2 :=
      match p.1 with
      | none => counts
      | some j => counts.set j (counts.getD j 0 + 1)
    wrrRun bs count p.2 counts2

/-- The total weight of a backend list (the `totalWeight` accumulated
by a full WRR pass when all weights are positive). -/
def sumW (bs : List SBackend) : Int :=
  (bs.map (fun b => b.weight)).sum

/-! ### Consistent hash (internal/strategy/consistent_hash.go) -/

/-- One round of CRC32-IEEE: shift right, conditionally xor the
reflected polynomial `0xEDB88320`. -/
def crc32Round (x : Nat) : Nat :=
  if x % 2 = 1 then Nat.xor (x / 2) 0xEDB88320 else x / 2

/-- Folds one byte into a CRC32-IEEE accumulator (8 rounds). -/
def crc32Byte (crc b : Nat) : Nat :=
  let x := Nat.xor crc (b % 256)
  crc32Round (crc32Round (crc32Round (crc32Round
    (crc32Round (crc32Round (crc32Round (crc32Round x)))))))

/-- Folds a byte list into a CRC32-IEEE accumulator. -/
def crc32Aux (crc : Nat) : List Nat → Nat
  | [] => crc
  | b :: rest => crc32Aux (crc32Byte crc b) rest

/-- `crc32.ChecksumIEEE` over a byte list. -/
def crc32 (bytes : List Nat) : Nat :=
  Nat.xor (crc32Aux 0xFFFFFFFF bytes) 0xFFFFFFFF

/-- `crc32.ChecksumIEEE([]byte(s))` for an ASCII string (each character
is one byte). -/
def crc32Str (s : String) : Nat :=
  crc32 (s.data.map Char.toNat)

/-- Embeds `ringSnapshot`: sorted vnode positions plus the
position-to-backend map (an insertion-ordered association list; a map
read takes the last insertion for a position, as Go map writes
overwrite). -/
structure RingSnapshot where
  positions : List Nat
  owners : List (Nat × SBackend)
  deriving DecidableEq, Repr

/-- Go map read `owners[h]`: the last-inserted backend for position `h`,
or nil (`none`) when absent. -/
def ownersGet (owners : List (Nat × SBackend)) (h : Nat) : Option SBackend :=
  owners.reverse.lookup h

/-- `buildRing`: hashes `"<url>#<i>"` for each backend and
`i < vnodes`, collects the (position, backend) pairs in insertion
order, and sorts the position list ascending. -/
def buildRing (bs : List SBackend) (vnodes : Nat) : RingSnapshot :=
  let pairs := bs.flatMap (fun b =>
    (List.range vnodes).map (fun i => (crc32Str (b.url ++ "#" ++ toString i), b)))
  { positions := List.insertionSort (· ≤ ·) (pairs.map Prod.fst)
    owners := pairs }

/-- The loop of Go's `sort.Search`: binary search for the smallest index
in `[lo, hi)` satisfying `f`, returning `hi` when none does.  The loop
is driven by a fuel argument bounding the interval width `hi - lo`
(which shrinks every iteration), so the recursion is structural and the
function evaluates by reduction; with fuel `≥ hi - lo` the fuel never
runs out, so the fuel-0 case is unreachable from `sortSearch`. -/
def sortSearchGo (f : Nat → Bool) : Nat → Nat → Nat → Nat
  | 0, lo, _ => lo
  | fuel + 1, lo, hi =>
    if lo < hi then
      let m := (lo + hi) / 2
      if f m then sortSearchGo f fuel lo m else sortSearchGo f fuel (m + 1) hi
    else lo

/-- `sort.Search(n, f)`. -/
def sortSearch (n : Nat) (f : Nat → Bool) : Nat :=
  sortSearchGo f n 0 n

/-- `ringSnapshot.lookup`: nil on an empty ring; otherwise binary-search
the first position `≥ hash`, wrapping to position 0, and read the owner
map. -/
def ringLookup (r : RingSnapshot) (h : Nat) : Option SBackend :=
  if r.positions.length = 0 then none
  else
    let idx := sortSearch r.positions.length (fun i => r.positions.getD i 0 ≥ h)
    let idx2 := if idx = r.positions.length then 0 else idx
    ownersGet r.owners (r.positions.getD idx2 0)

/-- Embeds `consistentHashStrategy`: the virtual-node count, the current
ring snapshot, and the current key hash (`atomic.Uint32`). -/
structure CHState where
  virtualNodes : Nat
  ring : RingSnapshot
  hashKey : Nat
  deriving DecidableEq, Repr

/-- `NewConsistentHashStrategy`: a non-positive `virtualNodes` defaults
to 100; the initial ring is empty. -/
def chNew (virtualNodes : Int) : CHState :=
  { virtualNodes := if virtualNodes ≤ 0 then 100 else virtualNodes.toNat
    ring := { positions := [], owners := [] }
    hashKey := 0 }

/-- `consistentHashStrategy.SetKey`: stores the CRC32 of the key. -/
def chSetKey (s : CHState) (key : String) : CHState :=
  { s with hashKey := crc32Str key }

/-- `consistentHashStrategy.SelectBackend`: if the stored ring is empty
it is (re)built from the passed candidate list; then the ring is looked
up at the current key hash.  When the ring is already built, the
candidate list is ignored. -/
def chSelect (s : CHState) (bs : List SBackend) : Option SBackend × CHState :=
  if s.ring.positions.length = 0 then
    let rs := buildRing bs s.virtualNodes
    (ringLookup rs s.hashKey, { s with ring := rs })
  else
    (ringLookup s.ring s.hashKey, s)

/-- `consistentHashStrategy.Rebuild`. -/
def chRebuild (s : CHState) (bs : List SBackend) : CHState :=
  { s with ring := buildRing bs s.virtualNodes }

/-! ## Coordinator (internal/loadbalancer/loadbalancer.go)

The coordinator is polymorphic in the strategy (`strategy.Strategy`
interface); it is embedded with the strategy as an explicit stateful
selection function `sel : σ → List SBackend → Option SBackend × σ`.
Pointer identity of the shared `*Backend` objects is modelled by value
identity: incrementing the chosen object updates its first occurrence
in the list and the returned copy. -/

/-- `filterHealthyBackends`. -/
def filterHealthy (bs : List SBackend) : List SBackend :=
  bs.filter (fun b => b.healthy)

/-- `chosen.IncrementConn()` seen from a backend list: bump the first
occurrence of the chosen value. -/
def bumpFirst : List SBackend → SBackend → List SBackend
  | [], _ => []
  | b :: rest, c => if b = c then b.incConn :: rest else b :: bumpFirst rest c

/-- `LoadBalancer.GetAndReserveServer`: filter to healthy backends
(error when none), run the strategy (error when it returns nil), then
increment the chosen backend's connection count and return it. -/
def getAndReserveServer {σ : Type} (sel : σ → List SBackend → Option SBackend × σ)
    (st : σ) (bs : List SBackend) : Except String SBackend × σ × List SBackend :=
  let healthy := filterHealthy bs
  if healthy.length = 0 then (.error "no healthy backends", st, bs)
  else
    let p := sel st healthy
    match p.1 with
    | none => (.error "strategy returned nil backend", p.2, bs)
    | some c => (.ok c.incConn, p.2, bumpFirst bs c)

/-- `LoadBalancer.GetAndReserveServerWithKey`: as `GetAndReserveServer`
but first hands the key to the strategy (`SetKey`, modelled by `setK`;
the identity for strategies without the capability). -/
def getAndReserveServerWithKey {σ : Type} (sel : σ → List SBackend → Option SBackend × σ)
    (setK : σ → String → σ) (st : σ) (bs : List SBackend) (key : String) :
    Except String SBackend × σ × List SBackend :=
  let healthy := filterHealthy bs
  if healthy.length = 0 then (.error "no healthy backends", st, bs)
  else
    let st1 := setK st key
    let p := sel st1 healthy
    match p.1 with
    | none => (.error "strategy returned nil backend", p.2, bs)
    | some c => (.ok c.incConn, p.2, bumpFirst bs c)

/-! ## Forwarding handler (internal/handler/handler.go) -/

/-- `isIdempotent`: true for GET, HEAD, OPTIONS, TRACE, PUT, DELETE. -/
def isIdempotent (method : String) : Bool :=
  match method with
  | "GET" => true
  | "HEAD" => true
  | "OPTIONS" => true
  | "TRACE" => true
  | "PUT" => true
  | "DELETE" => true
  | _ => false

/-- The observable outcome of one reverse-proxy forward: whether the
proxy reported a transport error, whether the wrapped response writer
saw a header/body write, the recorded status code, and the measured
duration.  Forward outcomes are supplied by an oracle indexed by
dispatch count, since they depend on the external upstream. -/
structure ProxyOutcome where
  hasErr : Bool
  headerWritten : Bool
  status : Nat
  duration : Int
  deriving DecidableEq, Repr

/-- The result of one `ServeHTTP` run: the final backend states and
registry, the number of attempt-loop iterations entered, the number of
reverse-proxy dispatches performed, and the status code surfaced to the
client. -/
structure HandlerResult where
  backends : List SBackend
  registry : Option Registry
  iters : Nat
  dispatches : Nat
  response : Nat
  deriving DecidableEq, Repr

/-- Applies `f` to the first backend with the given URL (models a
mutation of the shared `*Backend` object; backend URLs are unique in a
deployed configuration). -/
def updateFirstUrl (f : SBackend → SBackend) : List SBackend → String → List SBackend
  | [], _ => []
  | b :: rest, url => if b.url = url then f b :: rest else b :: updateFirstUrl f rest url

/-- `LoadBalancerHandler.selectBackend`: filter the handler's backends
to those not yet tried and healthy, error when none remain, else invoke
the coordinator (which filters to healthy again and reserves).  The
increment of the chosen shared object is applied to the full backend
list. -/
def handlerSelectBackend {σ : Type} (sel : σ → List SBackend → Option SBackend × σ)
    (st : σ) (bs : List SBackend) (tried : List String) :
    Except String SBackend × σ × List SBackend :=
  let available := bs.filter (fun b => !(tried.contains b.url) && b.healthy)
  if available.length = 0 then (.error "http: Server closed", st, bs)
  else
    let healthy := filterHealthy available
    if healthy.length = 0 then (.error "no healthy backends", st, bs)
    else
      let p := sel st healthy
      match p.1 with
      | none => (.error "strategy returned nil backend", p.2, bs)
      | some c => (.ok c.incConn, p.2, bumpFirst bs c)

/-- `Registry.GetBreaker(url).RecordSuccess()` on an optional registry. -/
def regRecordSuccess : Option Registry → String → Option Registry
  | none, _ => none
  | some r, url =>
    let p := r.getBreaker url
    some (p.2.putBreaker url p.1.recordSuccess)

/-- `Registry.GetBreaker(url).RecordFailure()` on an optional registry. -/
def regRecordFailure : Option Registry → String → Int → Option Registry
  | none, _, _ => none
  | some r, url, now =>
    let p := r.getBreaker url
    some (p.2.putBreaker url (p.1.recordFailure now))

/-- The attempt loop of `ServeHTTP` (handler.go lines 104-207), with the
remaining attempt budget as fuel.  Per iteration: select-and-reserve a
backend (break to 503 on error), mark it tried, consult its breaker
(`continue` when not allowed), increment its connection count, forward
(outcome from the oracle, indexed by dispatch count), decrement, then
on success record breaker success and the EWMA sample and return; on
failure record breaker failure, return if the response header was
already written, else continue.  `clock` supplies `time.Now()` per
iteration. -/
def serveLoop {σ : Type} (sel : σ → List SBackend → Option SBackend × σ)
    (oracle : Nat → ProxyOutcome) (clock : Nat → Int) :
    Nat → σ → List SBackend → Option Registry → List String → Nat → Nat → HandlerResult
  | 0, _, bs, reg, _, iters, disp =>
    { backends := bs, registry := reg, iters := iters, dispatches := disp, response := 503 }
  | fuel + 1, st, bs, reg, tried, iters, disp =>
    match handlerSelectBackend sel st bs tried with
    | (.error _, _, bs2) =>
      { backends := bs2, registry := reg, iters := iters + 1, dispatches := disp,
        response := 503 }
    | (.ok c, st2, bs2) =>
      let url := c.url
      let tried2 := url :: tried
      let gate : Bool × Option Registry :=
        match reg with
        | none => (true, none)
        | some r =>
          let q := r.getBreaker url
          let a := q.1.allow (clock iters)
          (a.1, some (q.2.putBreaker url a.2))
      if !gate.1 then
        serveLoop sel oracle clock fuel st2 bs2 gate.2 tried2 (iters + 1) disp
      else
        let bs3 := updateFirstUrl SBackend.incConn bs2 url
        let out := oracle disp
        let bs4 := updateFirstUrl SBackend.decConn bs3 url
        if !out.hasErr then
          let reg2 := regRecordSuccess gate.2 url
          let bs5 := updateFirstUrl (fun b => b.recordResponse out.duration) bs4 url
          { backends := bs5, registry := reg2, iters := iters + 1, dispatches := disp + 1,
            response := out.status }
        else
          let reg2 := regRecordFailure gate.2 url (clock iters)
          if out.headerWritten then
            { backends := bs4, registry := reg2, iters := iters + 1, dispatches := disp + 1,
              response := out.status }
          else
            serveLoop sel oracle clock fuel st2 bs4 reg2 tried2 (iters + 1) (disp + 1)

/-- `ServeHTTP`: the attempt budget is `maxRetries + 1` for idempotent
methods when `maxRetries > 0`, else 1; then the attempt loop runs. -/
def serveHTTP {σ : Type} (sel : σ → List SBackend → Option SBackend × σ)
    (oracle : Nat → ProxyOutcome) (clock : Nat → Int) (method : String)
    (maxRetries : Nat) (st : σ) (bs : List SBackend) (reg : Option Registry) :
    HandlerResult :=
  let maxAttempts := if isIdempotent method && decide (0 < maxRetries) then maxRetries + 1 else 1
  serveLoop sel oracle clock maxAttempts st bs reg [] 0 0

/-! ## Metrics (metrics store and snapshot) -/

/-- `metrics.average`: integer mean (Go `time.Duration` division
truncates), 0 on the empty list. -/
def metricsAverage (ds : List Int) : Int :=
  if ds.length = 0 then 0 else ds.sum / (ds.length : Int)

/-- `metrics.percentile` on an ascending-sorted sample list, with the
percentile given as the exact fraction `num/den`: index
`⌊len * num / den⌋` clamped to `len - 1`, 0 on the empty list.  The Go
code computes the index as `int(float64(len) * p)`; for some lengths
the float64 product truncates one step below the exact fraction, but
float64 rounding is monotone in `p`, so the ordering facts proved here
are insensitive to that difference. -/
def metricsPercentile (sorted : List Int) (num den : Nat) : Int :=
  if sorted.length = 0 then 0
  else
    let index := sorted.length * num / den
    let index2 := if index ≥ sorted.length then sorted.length - 1 else index
    sorted.getD index2 0

/-- The per-backend latency block of `Metrics.Snapshot`: average, p50,
p95, p99. -/
structure BackendLatency where
  avgResponse : Int
  p50Response : Int
  p95Response : Int
  p99Response : Int
  deriving DecidableEq, Repr

/-- The latency part of `Metrics.Snapshot` for one backend's recorded
durations: zero values when no samples, else sort an ascending copy and
compute average and percentiles. -/
def snapshotLatency (durations : List Int) : BackendLatency :=
  if durations.length = 0 then
    { avgResponse := 0, p50Response := 0, p95Response := 0, p99Response := 0 }
  else
    let sorted := List.insertionSort (· ≤ ·) durations
    { avgResponse := metricsAverage sorted
      p50Response := metricsPercentile sorted 50 100
      p95Response := metricsPercentile sorted 95 100
      p99Response := metricsPercentile sorted 99 100 }

/-- `Metrics.RecordResponse` sample-buffer update: append, then drop the
oldest while over 1000 samples. -/
def metricsRecordSample (samples : List Int) (d : Int) : List Int :=
  let s2 := samples ++ [d]
  if s2.length > 1000 then s2.drop 1 else s2

/-- The least-response ranking `ewma × (activeConnections + 1)`. -/
def lrScore (b : SBackend) : Int :=
  b.ewmaTime * ((b.conns : Int) + 1)

/-- Specification of the amended claim C8 for the least-response
choice, written from the (amended) spec's words: the first candidate
whose `EWMATime()` reads zero; otherwise the first candidate attaining
the minimal score `ewma × (activeConnections + 1)` (ties broken by
input order). -/
def lrSpec (bs : List SBackend) : Option SBackend :=
  match bs.find? (fun b => b.ewmaTime == 0) with
  | some b => some b
  | none =>
    match (bs.map lrScore).min? with
    | none => none
    | some m => bs.find? (fun b => lrScore b == m)

/-! ## Helper lemmas -/

/-- On an ascending-sorted list, reading a later index gives a value at
least as large. -/
theorem sorted_getD_mono {l : List Int} (hs : l.Sorted (· ≤ ·)) {i j : Nat}
    (hij : i ≤ j) (hj : j < l.length) : l.getD i 0 ≤ l.getD j 0 := by
  have hi : i < l.length := lt_of_le_of_lt hij hj
  rw [List.getD_eq_getElem l 0 hi, List.getD_eq_getElem l 0 hj]
  exact hs.rel_get_of_le hij

/-- `metrics.percentile` is monotone in the percentile fraction on a
sorted sample list. -/
theorem metricsPercentile_mono {l : List Int} (hs : l.Sorted (· ≤ ·)) {n1 n2 den : Nat}
    (h12 : n1 ≤ n2) : metricsPercentile l n1 den ≤ metricsPercentile l n2 den := by
  unfold metricsPercentile
  by_cases h0 : l.length = 0
  · simp [h0]
  · simp only [h0, if_false]
    have hle : l.length * n1 / den ≤ l.length * n2 / den :=
      Nat.div_le_div_right (Nat.mul_le_mul_left _ h12)
    apply sorted_getD_mono hs
    · split <;> split <;> omega
    · split <;> omega

/-- Counter evolution of consecutive round-robin selections: the k-th
call (0-based) on a fixed non-empty list runs with counter value
`(st + k) % 2^64`. -/
theorem rrRun_getD (bs : List SBackend) (hne : bs ≠ []) :
    ∀ (k st : Nat), st < U64 →
      (rrRun bs st (k + 1)).getD k none = (rrSelect ((st + k) % U64) bs).1 := by
  intro k
  induction k with
  | zero =>
    intro st hst
    simp [rrRun, Nat.mod_eq_of_lt hst]
  | succ k ih =>
    intro st hst
    have hlen : ¬ bs.length = 0 := by simpa using (List.length_eq_zero.not.mpr hne)
    have hstep : (rrSelect st bs).2 = (st + 1) % U64 := by
      simp [rrSelect, hlen]
    have hpos : 0 < U64 := by decide
    calc (rrRun bs st (k + 2)).getD (k + 1) none
        = (rrRun bs ((rrSelect st bs).2) (k + 1)).getD k none := by
          simp [rrRun]
      _ = (rrSelect (((st + 1) % U64 + k) % U64) bs).1 := by
          rw [hstep]; exact ih ((st + 1) % U64) (Nat.mod_lt _ hpos)
      _ = (rrSelect ((st + (k + 1)) % U64) bs).1 := by
          rw [Nat.mod_add_mod]
          ring_nf

/-- With counter value `k < 2^64`, the round-robin pick on a non-empty
list is `candidates[k mod n]`. -/
theorem rrSelect_counter (bs : List SBackend) (hne : bs ≠ []) (k : Nat) (hk : k < U64) :
    (rrSelect k bs).1 = bs.get? (k % bs.length) := by
  have hlen : ¬ bs.length = 0 := by simpa using (List.length_eq_zero.not.mpr hne)
  have hidx : (((k + 1) % U64) + U64 - 1) % U64 = k := by
    rcases Nat.lt_or_ge (k + 1) U64 with h | h
    · rw [Nat.mod_eq_of_lt h]
      have : k + 1 + U64 - 1 = k + U64 := by omega
      rw [this, Nat.add_mod_right]
      exact Nat.mod_eq_of_lt hk
    · have hk1 : k + 1 = U64 := by omega
      rw [hk1]
      simp only [Nat.mod_self]
      have : 0 + U64 - 1 = U64 - 1 := by omega
      rw [this]
      have h1 : U64 - 1 < U64 := by decide
      rw [Nat.mod_eq_of_lt h1]
      omega
  simp only [rrSelect, hlen, if_false]
  rw [hidx]

/-- `bumpFirst` on a member: the list is updated at the first position
holding the chosen value, by exactly one connection increment. -/
theorem bumpFirst_spec (bs : List SBackend) (c : SBackend) (hc : c ∈ bs) :
    ∃ i, i < bs.length ∧ bs.get? i = some c ∧ bumpFirst bs c = bs.set i c.incConn := by
  induction bs with
  | nil => cases hc
  | cons b rest ih =>
    by_cases hb : b = c
    · exact ⟨0, by simp, by simp [hb], by simp [bumpFirst, hb]⟩
    · have hc2 : c ∈ rest := by
        rcases List.mem_cons.mp hc with h | h
        · exact absurd h.symm hb
        · exact h
      rcases ih hc2 with ⟨i, h1, h2, h3⟩
      refine ⟨i + 1, by simpa using h1, by simpa using h2, ?_⟩
      simp [bumpFirst, hb, h3]

/-- Attempt-loop resource bound: the loop performs at most `fuel` more
iterations and at most `fuel` more dispatches. -/
theorem serveLoop_budget {σ : Type} (sel : σ → List SBackend → Option SBackend × σ)
    (oracle : Nat → ProxyOutcome) (clock : Nat → Int) :
    ∀ (fuel : Nat) (st : σ) (bs : List SBackend) (reg : Option Registry)
      (tried : List String) (iters disp : Nat),
      (serveLoop sel oracle clock fuel st bs reg tried iters disp).iters ≤ iters + fuel ∧
      (serveLoop sel oracle clock fuel st bs reg tried iters disp).dispatches ≤ disp + fuel := by
  intro fuel
  induction fuel with
  | zero =>
    intro st bs reg tried iters disp
    simp [serveLoop]
  | succ fuel ih =>
    intro st bs reg tried iters disp
    rw [serveLoop]
    split
    · simp only
      omega
    · simp only
      split
      · rcases ih _ _ _ _ (iters + 1) disp with ⟨h1, h2⟩
        constructor
        · exact le_trans h1 (by omega)
        · exact le_trans h2 (by omega)
      · split
        · simp only
          omega
        · split
          · simp only
            omega
          · rcases ih _ _ _ _ (iters + 1) (disp + 1) with ⟨h1, h2⟩
            constructor
            · exact le_trans h1 (by omega)
            · exact le_trans h2 (by omega)

/-! ## Claim theorems -/

/-- **C3** The circuit breaker implements the specified 3-state machine:
from initial CLOSED, `Allow` returns true in CLOSED; in OPEN it moves to
HALF-OPEN and returns true exactly when `now - lastFailure ≥
resetTimeout`, else returns false; in HALF-OPEN it returns true;
`RecordSuccess` zeroes the failures and closes from any state;
`RecordFailure` increments failures, stamps `lastFailure`, moves
HALF-OPEN to OPEN and moves to OPEN once failures reach the threshold;
and the threshold-2 scenario (two failures → OPEN with Allow false
before the timeout; Allow true with HALF-OPEN after it; then
RecordSuccess → CLOSED) plays out. -/
theorem c3_circuit_breaker_state_machine
    (cb : CB) (now t1 t2 t3 t4 : Int) (th : Nat) (rt : Int) :
    ((CB.new th rt).state = .closed ∧ (CB.new th rt).failures = 0) ∧
    (cb.state = .closed → cb.allow now = (true, cb)) ∧
    (cb.state = .open → cb.resetTimeout ≤ now - cb.lastFailure →
      cb.allow now = (true, { cb with state := .halfOpen })) ∧
    (cb.state = .open → now - cb.lastFailure < cb.resetTimeout →
      cb.allow now = (false, cb)) ∧
    (cb.state = .halfOpen → cb.allow now = (true, cb)) ∧
    (cb.recordSuccess.failures = 0 ∧ cb.recordSuccess.state = .closed) ∧
    ((cb.recordFailure now).failures = cb.failures + 1 ∧
     (cb.recordFailure now).lastFailure = now ∧
     (cb.recordFailure now).state =
       (if cb.state = .halfOpen ∨ cb.failureThreshold ≤ cb.failures + 1 then .open
        else cb.state)) ∧
    ((((CB.new 2 rt).recordFailure t1).recordFailure t2).state = .open ∧
     (t3 - t2 < rt →
       (((((CB.new 2 rt).recordFailure t1).recordFailure t2).allow t3).1 = false)) ∧
     (rt ≤ t4 - t2 →
       (((CB.new 2 rt).recordFailure t1).recordFailure t2).allow t4 =
         (true, { ((CB.new 2 rt).recordFailure t1).recordFailure t2 with
                    state := .halfOpen }) ∧
       ((((CB.new 2 rt).recordFailure t1).recordFailure t2).allow t4).2.recordSuccess.state
         = .closed)) := by
  have hrf2 : ((CB.new 2 rt).recordFailure t1).recordFailure t2 =
      { state := .open, failures := 2, lastFailure := t2,
        failureThreshold := 2, resetTimeout := rt } := by
    simp [CB.new, CB.recordFailure]
  refine ⟨⟨rfl, rfl⟩, ?_, ?_, ?_, ?_, ⟨rfl, rfl⟩, ⟨?_, ?_, ?_⟩, ?_⟩
  · intro h; simp [CB.allow, h]
  · intro h ht; simp [CB.allow, h, ht]
  · intro h ht
    simp only [CB.allow, h]
    rw [if_neg (by omega)]
  · intro h; simp [CB.allow, h]
  · simp only [CB.recordFailure]
    split <;> split <;> rfl
  · simp only [CB.recordFailure]
    split <;> split <;> rfl
  · simp only [CB.recordFailure]
    rcases hst : cb.state with h | h | h <;> simp [hst] <;> split <;> simp_all
  · refine ⟨by rw [hrf2], ?_, ?_⟩
    · intro ht
      rw [hrf2]
      simp only [CB.allow]
      rw [if_neg (by omega)]
    · intro ht
      rw [hrf2]
      simp only [CB.allow]
      rw [if_pos (by omega)]
      exact ⟨rfl, rfl⟩

/-- Witness for C3: a concrete OPEN breaker (threshold 5, timeout 50,
last failure at 100) allows at time 180 moving to HALF-OPEN, refuses at
time 120, and the threshold-2 double-failure scenario lands in OPEN. -/
theorem c3_circuit_breaker_state_machine_witness :
    (⟨.open, 3, 100, 5, 50⟩ : CB).allow 180 = (true, ⟨.halfOpen, 3, 100, 5, 50⟩) ∧
    (⟨.open, 3, 100, 5, 50⟩ : CB).allow 120 = (false, ⟨.open, 3, 100, 5, 50⟩) ∧
    (((CB.new 2 10).recordFailure 20).recordFailure 30).state = .open := by
  refine ⟨?_, ?_, ?_⟩
  · exact (c3_circuit_breaker_state_machine ⟨.open, 3, 100, 5, 50⟩ 180 0 0 0 0 1 1).2.2.1
      rfl (by decide)
  · exact (c3_circuit_breaker_state_machine ⟨.open, 3, 100, 5, 50⟩ 120 0 0 0 0 1 1).2.2.2.1
      rfl (by decide)
  · exact (c3_circuit_breaker_state_machine (CB.new 2 10) 0 20 30 0 0 2 10).2.2.2.2.2.2.2.1

/-- **C9** Percentile monotonicity: for every sample list held by the
metrics store, the snapshot's percentiles satisfy `p50 ≤ p95 ≤ p99`,
and on an empty sample set the average and all three percentiles are
the zero duration. -/
theorem c9_percentile_monotonicity (durations : List Int) :
    ((snapshotLatency durations).p50Response ≤ (snapshotLatency durations).p95Response ∧
     (snapshotLatency durations).p95Response ≤ (snapshotLatency durations).p99Response) ∧
    (durations = [] →
      (snapshotLatency durations).avgResponse = 0 ∧
      (snapshotLatency durations).p50Response = 0 ∧
      (snapshotLatency durations).p95Response = 0 ∧
      (snapshotLatency durations).p99Response = 0) := by
  constructor
  · unfold snapshotLatency
    by_cases h0 : durations.length = 0
    · simp [h0]
    · simp only [h0, if_false]
      have hs : (List.insertionSort (· ≤ ·) durations).Sorted (· ≤ ·) :=
        List.sorted_insertionSort _ _
      exact ⟨metricsPercentile_mono hs (by omega), metricsPercentile_mono hs (by omega)⟩
  · intro h
    subst h
    simp [snapshotLatency]

/-- Witness for C9: concrete evaluation on the empty sample set and
ordering on the samples `[30, 10, 20]`. -/
theorem c9_percentile_monotonicity_witness :
    ((snapshotLatency []).avgResponse = 0 ∧
     (snapshotLatency []).p50Response = 0 ∧
     (snapshotLatency []).p95Response = 0 ∧
     (snapshotLatency []).p99Response = 0) ∧
    ((snapshotLatency [30, 10, 20]).p50Response ≤ (snapshotLatency [30, 10, 20]).p95Response ∧
     (snapshotLatency [30, 10, 20]).p95Response ≤ (snapshotLatency [30, 10, 20]).p99Response) :=
  ⟨(c9_percentile_monotonicity []).2 rfl, (c9_percentile_monotonicity [30, 10, 20]).1⟩

set_option maxRecDepth 4000 in
/-- **C7** RoundRobin rotation: on a fixed non-empty candidate list the
k-th call (k starting at 0, below the `uint64` wrap) returns
`candidates[k mod n]`; over 3 backends, 300 consecutive selections
return each backend exactly 100 times (the cyclic order
`B₀,B₁,B₂,…` is the k mod n fact). -/
theorem c7_round_robin_rotation :
    (∀ (bs : List SBackend) (k : Nat), bs ≠ [] → k < U64 →
      (rrRun bs 0 (k + 1)).getD k none = bs.get? (k % bs.length)) ∧
    ((rrRun [⟨"a", true, 0, 1, 0, false⟩, ⟨"b", true, 0, 1, 0, false⟩,
             ⟨"c", true, 0, 1, 0, false⟩] 0 300).count
        (some ⟨"a", true, 0, 1, 0, false⟩) = 100 ∧
     (rrRun [⟨"a", true, 0, 1, 0, false⟩, ⟨"b", true, 0, 1, 0, false⟩,
             ⟨"c", true, 0, 1, 0, false⟩] 0 300).count
        (some ⟨"b", true, 0, 1, 0, false⟩) = 100 ∧
     (rrRun [⟨"a", true, 0, 1, 0, false⟩, ⟨"b", true, 0, 1, 0, false⟩,
             ⟨"c", true, 0, 1, 0, false⟩] 0 300).count
        (some ⟨"c", true, 0, 1, 0, false⟩) = 100) := by
  refine ⟨?_, by decide, by decide, by decide⟩
  intro bs k hne hk
  have h1 := rrRun_getD bs hne k 0 (by decide)
  rw [Nat.zero_add, Nat.mod_eq_of_lt hk] at h1
  rw [h1]
  exact rrSelect_counter bs hne k hk

/-- **C10** Coordinator error atomicity: whenever `GetAndReserveServer`
or `GetAndReserveServerWithKey` returns an error, the backend list is
left entirely unchanged; when a backend is returned, exactly one
position — the first occurrence of the chosen backend, which the
strategy picked from the healthy candidates — has its connection count
incremented by one, every other position is unchanged, and the returned
backend is the incremented one. -/
theorem c10_coordinator_error_atomicity {σ : Type}
    (sel : σ → List SBackend → Option SBackend × σ) (setK : σ → String → σ)
    (st : σ) (bs : List SBackend) (key : String)
    (hsel : ∀ s l b, (sel s l).1 = some b → b ∈ l) :
    (∀ e st2 bs2, getAndReserveServer sel st bs = (.error e, st2, bs2) → bs2 = bs) ∧
    (∀ c st2 bs2, getAndReserveServer sel st bs = (.ok c, st2, bs2) →
      ∃ i, i < bs.length ∧ (bs.get? i).map SBackend.incConn = some c ∧
        bs2 = bs.set i c ∧
        (bs2.get? i).map SBackend.conns = (bs.get? i).map (fun b => b.conns + 1) ∧
        (∀ m, m ≠ i → bs2.get? m = bs.get? m)) ∧
    (∀ e st2 bs2, getAndReserveServerWithKey sel setK st bs key = (.error e, st2, bs2) →
      bs2 = bs) ∧
    (∀ c st2 bs2, getAndReserveServerWithKey sel setK st bs key = (.ok c, st2, bs2) →
      ∃ i, i < bs.length ∧ (bs.get? i).map SBackend.incConn = some c ∧
        bs2 = bs.set i c ∧
        (bs2.get? i).map SBackend.conns = (bs.get? i).map (fun b => b.conns + 1) ∧
        (∀ m, m ≠ i → bs2.get? m = bs.get? m)) := by
  have hok : ∀ (c0 : SBackend), c0 ∈ filterHealthy bs →
      ∃ i, i < bs.length ∧ (bs.get? i).map SBackend.incConn = some c0.incConn ∧
        bumpFirst bs c0 = bs.set i c0.incConn ∧
        ((bumpFirst bs c0).get? i).map SBackend.conns =
          (bs.get? i).map (fun b => b.conns + 1) ∧
        (∀ m, m ≠ i → (bumpFirst bs c0).get? m = bs.get? m) := by
    intro c0 hmem
    have hmem2 : c0 ∈ bs := List.mem_of_mem_filter hmem
    rcases bumpFirst_spec bs c0 hmem2 with ⟨i, h1, h2, h3⟩
    refine ⟨i, h1, by rw [h2]; rfl, h3, ?_, ?_⟩
    · rw [h3, List.get?_set_eq, h2]
      simp only [Option.map_map, Option.map_some]
      rfl
    · intro m hm
      rw [h3]
      exact List.get?_set_ne _ _ (fun h => hm h.symm)
  refine ⟨?_, ?_, ?_, ?_⟩
  · intro e st2 bs2 h
    simp only [getAndReserveServer] at h
    split at h
    · cases h; rfl
    · split at h
      · cases h; rfl
      · cases h
  · intro c st2 bs2 h
    simp only [getAndReserveServer] at h
    split at h
    · cases h
    · split at h
      · cases h
      · rename_i c0 hc0
        cases h
        exact hok c0 (hsel _ _ _ hc0)
  · intro e st2 bs2 h
    simp only [getAndReserveServerWithKey] at h
    split at h
    · cases h; rfl
    · split at h
      · cases h; rfl
      · cases h
  · intro c st2 bs2 h
    simp only [getAndReserveServerWithKey] at h
    split at h
    · cases h
    · split at h
      · cases h
      · rename_i c0 hc0
        cases h
        exact hok c0 (hsel _ _ _ hc0)

/-- Witness for C10: a head-picking strategy over one unhealthy and one
healthy backend reserves exactly the healthy one. -/
theorem c10_coordinator_error_atomicity_witness :
    ∃ i, i < ([⟨"u", false, 0, 1, 0, false⟩, ⟨"h", true, 3, 1, 0, false⟩] :
        List SBackend).length ∧
      (([⟨"u", false, 0, 1, 0, false⟩, ⟨"h", true, 3, 1, 0, false⟩] :
          List SBackend).get? i).map SBackend.incConn =
        some ⟨"h", true, 4, 1, 0, false⟩ ∧
      [(⟨"u", false, 0, 1, 0, false⟩ : SBackend), ⟨"h", true, 4, 1, 0, false⟩] =
        ([⟨"u", false, 0, 1, 0, false⟩, ⟨"h", true, 3, 1, 0, false⟩] :
          List SBackend).set i ⟨"h", true, 4, 1, 0, false⟩ ∧
      (([(⟨"u", false, 0, 1, 0, false⟩ : SBackend), ⟨"h", true, 4, 1, 0, false⟩].get? i).map
          SBackend.conns =
        (([⟨"u", false, 0, 1, 0, false⟩, ⟨"h", true, 3, 1, 0, false⟩] :
            List SBackend).get? i).map (fun b => b.conns + 1)) ∧
      (∀ m, m ≠ i →
        [(⟨"u", false, 0, 1, 0, false⟩ : SBackend), ⟨"h", true, 4, 1, 0, false⟩].get? m =
          ([⟨"u", false, 0, 1, 0, false⟩, ⟨"h", true, 3, 1, 0, false⟩] :
            List SBackend).get? m) :=
  (c10_coordinator_error_atomicity (σ := Unit) (fun s l => (l.head?, s)) (fun s _ => s)
      () [⟨"u", false, 0, 1, 0, false⟩, ⟨"h", true, 3, 1, 0, false⟩] "k"
      (fun _ l b hb => by
        cases l with
        | nil => simp [List.head?] at hb
        | cons x xs =>
          simp only [List.head?] at hb
          cases hb
          exact List.mem_cons_self _ _)).2.1
    ⟨"h", true, 4, 1, 0, false⟩ () _ rfl

/-- **C1** (connection-leak evaluation) A single GET request to a single
healthy backend that succeeds on the first attempt leaves the backend's
`activeConnections` at 1, not at its pre-request value 0: the
coordinator's reservation (`GetAndReserveServer`) and the handler's own
`IncrementConn` both increment, while the handler decrements only
once. -/
theorem c1_connection_leak_eval :
    serveHTTP (fun st l => rrSelect st l) (fun _ => ⟨false, true, 200, 50⟩)
        (fun _ => 0) "GET" 2 0 [⟨"http://b1", true, 0, 1, 0, false⟩] none =
      { backends := [⟨"http://b1", true, 1, 1, 50, true⟩], registry := none,
        iters := 1, dispatches := 1, response := 200 } ∧
    ([(⟨"http://b1", true, 0, 1, 0, false⟩ : SBackend)].map SBackend.conns = [0] ∧
     [(⟨"http://b1", true, 1, 1, 50, true⟩ : SBackend)].map SBackend.conns = [1]) := by
  refine ⟨?_, by decide, by decide⟩
  decide

/-- **C4** Retry attempt budget: for an idempotent method (GET, HEAD,
OPTIONS, TRACE, PUT, DELETE) with `maxRetries > 0` the attempt loop
runs at most `1 + maxRetries` iterations (and dispatches at most that
many forwards); for any non-idempotent method (such as POST or PATCH)
at most one iteration runs and at most one backend is dispatched to,
regardless of the retry configuration. -/
theorem c4_retry_attempt_budget {σ : Type} (sel : σ → List SBackend → Option SBackend × σ)
    (oracle : Nat → ProxyOutcome) (clock : Nat → Int) (method : String)
    (maxRetries : Nat) (st : σ) (bs : List SBackend) (reg : Option Registry) :
    (isIdempotent method = true → 0 < maxRetries →
      (serveHTTP sel oracle clock method maxRetries st bs reg).iters ≤ 1 + maxRetries ∧
      (serveHTTP sel oracle clock method maxRetries st bs reg).dispatches ≤ 1 + maxRetries) ∧
    (isIdempotent method = false →
      (serveHTTP sel oracle clock method maxRetries st bs reg).iters ≤ 1 ∧
      (serveHTTP sel oracle clock method maxRetries st bs reg).dispatches ≤ 1) := by
  constructor
  · intro hi hr
    unfold serveHTTP
    simp only [hi, decide_eq_true hr, Bool.and_self, if_true]
    have h := serveLoop_budget sel oracle clock (maxRetries + 1) st bs reg [] 0 0
    omega
  · intro hi
    have h := serveLoop_budget sel oracle clock 1 st bs reg [] 0 0
    simp only [serveHTTP, hi, Bool.false_and]
    rw [if_neg (by simp)]
    omega

/-- Witness for C4: a POST request with `maxRetries = 5` makes at most
one attempt and one dispatch; a GET with `maxRetries = 2` stays within
three attempts. -/
theorem c4_retry_attempt_budget_witness :
    ((serveHTTP (σ := Unit) (fun s l => (l.head?, s)) (fun _ => ⟨true, false, 502, 10⟩)
        (fun _ => 0) "POST" 5 () [⟨"a", true, 0, 1, 0, false⟩] none).iters ≤ 1 ∧
     (serveHTTP (σ := Unit) (fun s l => (l.head?, s)) (fun _ => ⟨true, false, 502, 10⟩)
        (fun _ => 0) "POST" 5 () [⟨"a", true, 0, 1, 0, false⟩] none).dispatches ≤ 1) ∧
    ((serveHTTP (σ := Unit) (fun s l => (l.head?, s)) (fun _ => ⟨true, false, 502, 10⟩)
        (fun _ => 0) "GET" 2 () [⟨"a", true, 0, 1, 0, false⟩] none).iters ≤ 1 + 2 ∧
     (serveHTTP (σ := Unit) (fun s l => (l.head?, s)) (fun _ => ⟨true, false, 502, 10⟩)
        (fun _ => 0) "GET" 2 () [⟨"a", true, 0, 1, 0, false⟩] none).dispatches ≤ 1 + 2) :=
  ⟨(c4_retry_attempt_budget _ _ _ "POST" 5 () _ none).2 (by decide),
   (c4_retry_attempt_budget _ _ _ "GET" 2 () _ none).1 (by decide) (by decide)⟩

/-- If the least-connections scan returns a backend, it is from the
scanned list or was the incoming accumulator. -/
theorem leastConnGo_some_mem : ∀ (l : List SBackend) (acc : Option SBackend) (bc : Int)
    (b : SBackend), leastConnGo l acc bc = some b → b ∈ l ∨ acc = some b := by
  intro l
  induction l with
  | nil => intro acc bc b h; exact Or.inr h
  | cons x rest ih =>
    intro acc bc b h
    rw [leastConnGo] at h
    split at h
    · rcases ih _ _ _ h with h2 | h2
      · exact Or.inl (List.mem_cons_of_mem _ h2)
      · cases h2; exact Or.inl (List.mem_cons_self _ _)
    · rcases ih _ _ _ h with h2 | h2
      · exact Or.inl (List.mem_cons_of_mem _ h2)
      · exact Or.inr h2

/-- If the least-connections scan returns nil, the accumulator was nil
and every scanned backend has at least the incoming bound of active
connections. -/
theorem leastConnGo_none : ∀ (l : List SBackend) (acc : Option SBackend) (bc : Int),
    leastConnGo l acc bc = none → acc = none ∧ ∀ b ∈ l, bc ≤ (b.conns : Int) := by
  intro l
  induction l with
  | nil => intro acc bc h; exact ⟨h, by simp⟩
  | cons x rest ih =>
    intro acc bc h
    rw [leastConnGo] at h
    split at h
    · rcases ih _ _ h with ⟨h1, _⟩
      cases h1
    · rename_i hge
      rcases ih _ _ h with ⟨h1, h2⟩
      refine ⟨h1, ?_⟩
      intro b hb
      rcases List.mem_cons.mp hb with rfl | hb2
      · omega
      · exact h2 b hb2

/-- Once the least-response scan holds a chosen backend it never
returns nil. -/
theorem leastResponseGo_some_ne_none : ∀ (l : List SBackend) (c : SBackend) (best : Int),
    leastResponseGo l (some c) best ≠ none := by
  intro l
  induction l with
  | nil => intro c best h; cases h
  | cons x rest ih =>
    intro c best h
    rw [leastResponseGo] at h
    simp only [] at h
    split at h
    · cases h
    · split at h
      · exact ih _ _ h
      · exact ih _ _ h

/-- If the least-response scan returns a backend, it is from the
scanned list or was the incoming accumulator. -/
theorem leastResponseGo_some_mem : ∀ (l : List SBackend) (acc : Option SBackend) (best : Int)
    (b : SBackend), leastResponseGo l acc best = some b → b ∈ l ∨ acc = some b := by
  intro l
  induction l with
  | nil => intro acc best b h; exact Or.inr h
  | cons x rest ih =>
    intro acc best b h
    rw [leastResponseGo] at h
    simp only [] at h
    split at h
    · cases h; exact Or.inl (List.mem_cons_self _ _)
    · split at h
      · rcases ih _ _ _ h with h2 | h2
        · exact Or.inl (List.mem_cons_of_mem _ h2)
        · cases h2; exact Or.inl (List.mem_cons_self _ _)
      · split at h
        · rcases ih _ _ _ h with h2 | h2
          · exact Or.inl (List.mem_cons_of_mem _ h2)
          · cases h2; exact Or.inl (List.mem_cons_self _ _)
        · rcases ih _ _ _ h with h2 | h2
          · exact Or.inl (List.mem_cons_of_mem _ h2)
          · exact Or.inr h2

/-- A two-branch `if` of `some`s is never `none`. -/
theorem ite_some_ne_none {α : Type} (c : Prop) [Decidable c] (a b : α) :
    (if c then some a else some b) ≠ none := by
  split <;> simp

/-- A two-branch `if` of `some`s equal to `some x` pins `x` to one of
the branches. -/
theorem ite_some_eq {α : Type} (c : Prop) [Decidable c] (a b x : α)
    (h : (if c then some a else some b) = some x) : x = a ∨ x = b := by
  split at h
  · exact Or.inl (Option.some.inj h).symm
  · exact Or.inr (Option.some.inj h).symm

/-- If the WRR pass ends with no chosen position, it started with none
and every scanned backend has non-positive weight. -/
theorem wrrScan_none : ∀ (l : List SBackend) (i : Nat) (cur : Nat → Int)
    (ch : Option Nat) (tw : Int),
    (wrrScan l i cur ch tw).2.1 = none → ch = none ∧ ∀ b ∈ l, b.weight ≤ 0 := by
  intro l
  induction l with
  | nil => intro i cur ch tw h; exact ⟨h, by simp⟩
  | cons x rest ih =>
    intro i cur ch tw h
    rw [wrrScan] at h
    simp only [] at h
    split at h
    · rename_i hw
      rcases ih _ _ _ _ h with ⟨h1, h2⟩
      refine ⟨h1, ?_⟩
      intro b hb
      rcases List.mem_cons.mp hb with rfl | hb2
      · exact hw
      · exact h2 b hb2
    · exfalso
      rcases ih _ _ _ _ h with ⟨h1, _⟩
      rcases ch with _ | j
      · simp at h1
      · simp only [] at h1
        exact ite_some_ne_none _ _ _ h1

/-- If the WRR pass chooses a position, it is the incoming choice or
lies among the scanned positions. -/
theorem wrrScan_some : ∀ (l : List SBackend) (i : Nat) (cur : Nat → Int)
    (ch : Option Nat) (tw : Int) (j : Nat),
    (wrrScan l i cur ch tw).2.1 = some j → ch = some j ∨ (i ≤ j ∧ j < i + l.length) := by
  intro l
  induction l with
  | nil => intro i cur ch tw j h; exact Or.inl h
  | cons x rest ih =>
    intro i cur ch tw j h
    rw [wrrScan] at h
    simp only [] at h
    split at h
    · rcases ih _ _ _ _ _ h with h2 | h2
      · exact Or.inl h2
      · refine Or.inr ⟨by omega, ?_⟩
        simp only [List.length_cons]
        omega
    · rcases ih _ _ _ _ _ h with h2 | h2
      · rcases ch with _ | j0
        · simp only [] at h2
          cases h2
          refine Or.inr ⟨le_refl _, ?_⟩
          simp
        · simp only [] at h2
          rcases ite_some_eq _ _ _ _ h2 with rfl | rfl
          · refine Or.inr ⟨le_refl _, ?_⟩
            simp
          · exact Or.inl rfl
      · refine Or.inr ⟨by omega, ?_⟩
        simp only [List.length_cons]
        omega

/-- An association-list lookup hit is a member. -/
theorem lookup_pair_mem : ∀ (l : List (Nat × SBackend)) (k : Nat) (b : SBackend),
    l.lookup k = some b → (k, b) ∈ l := by
  intro l
  induction l with
  | nil => intro k b h; cases h
  | cons p rest ih =>
    intro k b h
    rw [List.lookup] at h
    split at h
    · rename_i hk
      cases h
      have : k = p.1 := by simpa using hk
      subst this
      exact List.mem_cons_self _ _
    · exact List.mem_cons_of_mem _ (ih _ _ h)

/-- Every owner stored in a built ring is one of the backends the ring
was built from. -/
theorem buildRing_owner_mem (bs : List SBackend) (v : Nat) (k : Nat) (b : SBackend)
    (h : (k, b) ∈ (buildRing bs v).owners) : b ∈ bs := by
  simp only [buildRing, List.mem_flatMap] at h
  rcases h with ⟨a, ha, h2⟩
  simp only [List.mem_map] at h2
  rcases h2 with ⟨i, _, h3⟩
  cases h3
  exact ha

/-- A successful lookup on a built ring returns one of the backends the
ring was built from. -/
theorem ringLookup_mem (bs : List SBackend) (v : Nat) (h : Nat) (b : SBackend)
    (hb : ringLookup (buildRing bs v) h = some b) : b ∈ bs := by
  rw [ringLookup] at hb
  split at hb
  · cases hb
  · have hm := lookup_pair_mem _ _ _ hb
    exact buildRing_owner_mem bs v _ b (List.mem_reverse.mp hm)

/-- The WRR pass never decreases the running total weight. -/
theorem wrrScan_tw_mono : ∀ (l : List SBackend) (i : Nat) (cur : Nat → Int)
    (ch : Option Nat) (tw : Int), tw ≤ (wrrScan l i cur ch tw).2.2 := by
  intro l
  induction l with
  | nil => intro i cur ch tw; exact le_refl _
  | cons x rest ih =>
    intro i cur ch tw
    rw [wrrScan]
    split
    · exact ih _ _ _ _
    · rename_i hw
      calc tw ≤ tw + x.weight := by omega
        _ ≤ _ := ih _ _ _ _

/-- If the WRR pass starts with no choice and ends with one, the total
weight strictly grew (some positive weight was folded in). -/
theorem wrrScan_tw_of_some : ∀ (l : List SBackend) (i : Nat) (cur : Nat → Int)
    (tw : Int) (j : Nat),
    (wrrScan l i cur none tw).2.1 = some j → tw < (wrrScan l i cur none tw).2.2 := by
  intro l
  induction l with
  | nil => intro i cur tw j h; cases h
  | cons x rest ih =>
    intro i cur tw j h
    rw [wrrScan] at h ⊢
    by_cases hw : x.weight ≤ 0
    · rw [if_pos hw] at h ⊢
      exact ih _ _ _ _ h
    · rw [if_neg hw] at h ⊢
      simp only [] at h ⊢
      calc tw < tw + x.weight := by omega
        _ ≤ _ := wrrScan_tw_mono _ _ _ _ _

/-- Reading an updated position of a `List.set`. -/
theorem getD_set_self (l : List Nat) (j v : Nat) (h : j < l.length) :
    (l.set j v).getD j 0 = v := by
  rw [List.getD_eq_getElem _ _ (by simpa using h)]
  simp [List.getElem_set]

/-- Reading an untouched position of a `List.set`. -/
theorem getD_set_other (l : List Nat) (j m v : Nat) (h : m ≠ j) :
    (l.set j v).getD m 0 = l.getD m 0 := by
  rcases Nat.lt_or_ge m l.length with hm | hm
  · rw [List.getD_eq_getElem _ _ (by simpa using hm), List.getD_eq_getElem _ _ hm]
    exact List.getElem_set_ne (Ne.symm h) _
  · rw [List.getD_eq_default _ _ (by simpa using hm), List.getD_eq_default _ _ hm]

/-- Every position of an all-zero list reads zero. -/
theorem getD_replicate_zero (n m : Nat) : (List.replicate n (0 : Nat)).getD m 0 = 0 := by
  rcases Nat.lt_or_ge m n with h | h
  · rw [List.getD_eq_getElem _ _ (by simpa using h)]
    simp
  · rw [List.getD_eq_default _ _ (by simpa using h)]

/-- A list sum as a `Finset.range` sum of its positions. -/
theorem list_sum_eq_range_sum {α : Type} [AddCommMonoid α] (l : List α) (d : α) :
    l.sum = ∑ m ∈ Finset.range l.length, l.getD m d := by
  induction l with
  | nil => simp
  | cons x rest ih =>
    simp only [List.sum_cons, List.length_cons]
    rw [Finset.sum_range_succ']
    simp only [List.getD_cons_succ, List.getD_cons_zero]
    rw [← ih]
    exact add_comm _ _

/-- A positive lower bound for the total weight of a non-empty list of
positive-weight backends. -/
theorem sumW_pos (bs : List SBackend) (hw : ∀ b ∈ bs, 1 ≤ b.weight) (hne : bs ≠ []) :
    1 ≤ sumW bs := by
  cases bs with
  | nil => exact absurd rfl hne
  | cons x rest =>
    have h1 : 1 ≤ x.weight := hw x (List.mem_cons_self _ _)
    have h2 : 0 ≤ sumW rest := by
      have : ∀ (l : List SBackend), (∀ b ∈ l, 1 ≤ b.weight) → 0 ≤ sumW l := by
        intro l
        induction l with
        | nil => intro _; simp [sumW]
        | cons y ys ih =>
          intro hl
          have hy : 1 ≤ y.weight := hl y (List.mem_cons_self _ _)
          have hys := ih (fun b hb => hl b (List.mem_cons_of_mem _ hb))
          simp only [sumW, List.map_cons, List.sum_cons] at *
          omega
      exact this rest (fun b hb => hw b (List.mem_cons_of_mem _ hb))
    simp only [sumW, List.map_cons, List.sum_cons] at *
    omega

/-- Frame and additivity facts of one WRR pass over positive-weight
backends: positions before `i` and at or beyond `i + length` are
untouched, each scanned position gains exactly its backend's weight,
and the returned total weight is the incoming one plus the list's total
weight. -/
theorem wrrScan_final : ∀ (l : List SBackend) (i : Nat) (cur : Nat → Int)
    (ch : Option Nat) (tw : Int), (∀ b ∈ l, 1 ≤ b.weight) →
    (∀ m, m < i → (wrrScan l i cur ch tw).1 m = cur m) ∧
    (∀ j, j < l.length →
      (wrrScan l i cur ch tw).1 (i + j) = cur (i + j) + (l.getD j default).weight) ∧
    (∀ m, i + l.length ≤ m → (wrrScan l i cur ch tw).1 m = cur m) ∧
    ((wrrScan l i cur ch tw).2.2 = tw + sumW l) := by
  intro l
  induction l with
  | nil =>
    intro i cur ch tw _
    refine ⟨fun m _ => rfl, fun j hj => absurd hj (by simp), fun m _ => rfl, by simp [wrrScan, sumW]⟩
  | cons x rest ih =>
    intro i cur ch tw hw
    have hx : 1 ≤ x.weight := hw x (List.mem_cons_self _ _)
    have hrest : ∀ b ∈ rest, 1 ≤ b.weight := fun b hb => hw b (List.mem_cons_of_mem _ hb)
    rw [wrrScan]
    rw [if_neg (by omega)]
    simp only []
    refine ⟨?_, ?_, ?_, ?_⟩
    · intro m hm
      refine Eq.trans ((ih (i + 1) _ _ _ hrest).1 m (by omega)) ?_
      rw [if_neg (by omega)]
    · intro j hj
      cases j with
      | zero =>
        rw [Nat.add_zero]
        refine Eq.trans ((ih (i + 1) _ _ _ hrest).1 i (by omega)) ?_
        simp
      | succ j =>
        have hj2 : j < rest.length := by simpa using hj
        have harith : i + (j + 1) = (i + 1) + j := by omega
        rw [harith]
        refine Eq.trans ((ih (i + 1) _ _ _ hrest).2.1 j hj2) ?_
        rw [if_neg (by omega)]
        rfl
    · intro m hm
      have hm2 : (i + 1) + rest.length ≤ m := by
        simp only [List.length_cons] at hm
        omega
      refine Eq.trans ((ih (i + 1) _ _ _ hrest).2.2.1 m hm2) ?_
      rw [if_neg (by omega)]
    · refine Eq.trans ((ih (i + 1) _ _ _ hrest).2.2.2) ?_
      simp only [sumW, List.map_cons, List.sum_cons]
      ring

/-- From a held candidate `j0 < i`, the WRR pass ends on a choice
dominating both `j0` and every scanned position, in final `current`
values. -/
theorem wrrScan_max : ∀ (l : List SBackend) (i : Nat) (cur : Nat → Int) (j0 : Nat)
    (tw : Int), (∀ b ∈ l, 1 ≤ b.weight) → j0 < i →
    ∃ j, (wrrScan l i cur (some j0) tw).2.1 = some j ∧
      (j = j0 ∨ (i ≤ j ∧ j < i + l.length)) ∧
      (wrrScan l i cur (some j0) tw).1 j0 ≤ (wrrScan l i cur (some j0) tw).1 j ∧
      (∀ m, i ≤ m → m < i + l.length →
        (wrrScan l i cur (some j0) tw).1 m ≤ (wrrScan l i cur (some j0) tw).1 j) := by
  intro l
  induction l with
  | nil =>
    intro i cur j0 tw _ _
    refine ⟨j0, rfl, Or.inl rfl, le_refl _, ?_⟩
    intro m h1 h2
    simp only [List.length_nil, Nat.add_zero] at h2
    omega
  | cons x rest ih =>
    intro i cur j0 tw hw hj0
    have hx : 1 ≤ x.weight := hw x (List.mem_cons_self _ _)
    have hrest : ∀ b ∈ rest, 1 ≤ b.weight := fun b hb => hw b (List.mem_cons_of_mem _ hb)
    have hne : j0 ≠ i := by omega
    rw [wrrScan]
    rw [if_neg (by omega)]
    simp only []
    simp only [if_true, if_neg hne]
    by_cases hcond : cur i + x.weight > cur j0
    · rw [if_pos hcond]
      rcases ih (i + 1) (fun m => if m = i then cur i + x.weight else cur m) i
          (tw + x.weight) hrest (by omega) with ⟨j, hres, hloc, hval, hmax⟩
      rcases wrrScan_final rest (i + 1) (fun m => if m = i then cur i + x.weight else cur m)
          (some i) (tw + x.weight) hrest with ⟨f1, _, _, _⟩
      have ei : (wrrScan rest (i + 1) (fun m => if m = i then cur i + x.weight else cur m)
          (some i) (tw + x.weight)).1 i = cur i + x.weight := by
        rw [f1 i (by omega)]
        simp
      have ej0 : (wrrScan rest (i + 1) (fun m => if m = i then cur i + x.weight else cur m)
          (some i) (tw + x.weight)).1 j0 = cur j0 := by
        rw [f1 j0 (by omega)]
        simp [hne]
      refine ⟨j, hres, ?_, ?_, ?_⟩
      · right
        rcases hloc with rfl | ⟨h1, h2⟩
        · constructor
          · exact le_refl _
          · simp
        · constructor
          · omega
          · simp only [List.length_cons]
            omega
      · omega
      · intro m hm1 hm2
        rcases Nat.eq_or_lt_of_le hm1 with rfl | hm3
        · omega
        · refine hmax m (by omega) ?_
          simp only [List.length_cons] at hm2
          omega
    · rw [if_neg hcond]
      rcases ih (i + 1) (fun m => if m = i then cur i + x.weight else cur m) j0
          (tw + x.weight) hrest (by omega) with ⟨j, hres, hloc, hval, hmax⟩
      rcases wrrScan_final rest (i + 1) (fun m => if m = i then cur i + x.weight else cur m)
          (some j0) (tw + x.weight) hrest with ⟨f1, _, _, _⟩
      have ei : (wrrScan rest (i + 1) (fun m => if m = i then cur i + x.weight else cur m)
          (some j0) (tw + x.weight)).1 i = cur i + x.weight := by
        rw [f1 i (by omega)]
        simp
      have ej0 : (wrrScan rest (i + 1) (fun m => if m = i then cur i + x.weight else cur m)
          (some j0) (tw + x.weight)).1 j0 = cur j0 := by
        rw [f1 j0 (by omega)]
        simp [hne]
      refine ⟨j, hres, ?_, hval, ?_⟩
      · rcases hloc with rfl | ⟨h1, h2⟩
        · exact Or.inl rfl
        · right
          constructor
          · omega
          · simp only [List.length_cons]
            omega
      · intro m hm1 hm2
        rcases Nat.eq_or_lt_of_le hm1 with rfl | hm3
        · omega
        · refine hmax m (by omega) ?_
          simp only [List.length_cons] at hm2
          omega

/-- Starting with no held candidate, the WRR pass over a non-empty
positive-weight list chooses a scanned position that dominates every
scanned position in final `current` values. -/
theorem wrrScan_argmax (l : List SBackend) (i : Nat) (cur : Nat → Int) (tw : Int)
    (hw : ∀ b ∈ l, 1 ≤ b.weight) (hne : l ≠ []) :
    ∃ j, (wrrScan l i cur none tw).2.1 = some j ∧ i ≤ j ∧ j < i + l.length ∧
      ∀ m, i ≤ m → m < i + l.length →
        (wrrScan l i cur none tw).1 m ≤ (wrrScan l i cur none tw).1 j := by
  cases l with
  | nil => exact absurd rfl hne
  | cons x rest =>
    have hx : 1 ≤ x.weight := hw x (List.mem_cons_self _ _)
    have hrest : ∀ b ∈ rest, 1 ≤ b.weight := fun b hb => hw b (List.mem_cons_of_mem _ hb)
    rw [wrrScan]
    rw [if_neg (by omega)]
    simp only []
    rcases wrrScan_max rest (i + 1) (fun m => if m = i then cur i + x.weight else cur m) i
        (tw + x.weight) hrest (by omega) with ⟨j, hres, hloc, hval, hmax⟩
    refine ⟨j, hres, ?_, ?_, ?_⟩
    · rcases hloc with rfl | ⟨h1, _⟩
      · exact le_refl _
      · omega
    · rcases hloc with rfl | ⟨_, h2⟩
      · simp
      · simp only [List.length_cons]
        omega
    · intro m hm1 hm2
      rcases Nat.eq_or_lt_of_le hm1 with rfl | hm3
      · exact hval
      · refine hmax m (by omega) ?_
        simp only [List.length_cons] at hm2
        omega

/-- One WRR selection on a non-empty positive-weight candidate list:
some position `j` is returned; after adding each backend's weight, `j`
holds the maximal `current`; `j`'s `current` is then reduced by the
total weight, all other positions keep their increased value, and
positions beyond the list are untouched. -/
theorem wrrSelect_step (bs : List SBackend) (cur : Nat → Int)
    (hw : ∀ b ∈ bs, 1 ≤ b.weight) (hne : bs ≠ []) :
    ∃ j, (wrrSelect bs cur).1 = some j ∧ j < bs.length ∧
      (∀ m, m < bs.length →
        cur m + (bs.getD m default).weight ≤ cur j + (bs.getD j default).weight) ∧
      ((wrrSelect bs cur).2 j = cur j + (bs.getD j default).weight - sumW bs) ∧
      (∀ m, m < bs.length → m ≠ j →
        (wrrSelect bs cur).2 m = cur m + (bs.getD m default).weight) ∧
      (∀ m, bs.length ≤ m → (wrrSelect bs cur).2 m = cur m) := by
  have hlen0 : ¬ bs.length = 0 := by simpa using (List.length_eq_zero.not.mpr hne)
  rcases wrrScan_argmax bs 0 cur 0 hw hne with ⟨j, hres, _, hj2, hmax⟩
  rcases wrrScan_final bs 0 cur none 0 hw with ⟨_, f2, f3, f4⟩
  have hv : ∀ m, m < bs.length →
      (wrrScan bs 0 cur none 0).1 m = cur m + (bs.getD m default).weight := by
    intro m hm
    have h := f2 m hm
    simpa using h
  have htw : (wrrScan bs 0 cur none 0).2.2 = sumW bs := by simpa using f4
  have htwpos : 1 ≤ sumW bs := sumW_pos bs hw hne
  have hj3 : j < bs.length := by simpa using hj2
  refine ⟨j, ?_, hj3, ?_, ?_, ?_, ?_⟩
  · rw [wrrSelect, if_neg hlen0]
    simp only []
    rw [hres]
    rw [htw]
    simp only []
    rw [if_neg (by omega)]
  · intro m hm
    have h := hmax m (by omega) (by simpa using hm)
    rw [hv m hm, hv j hj3] at h
    exact h
  · rw [wrrSelect, if_neg hlen0]
    simp only []
    rw [hres]
    rw [htw]
    simp only []
    rw [if_neg (by omega)]
    rw [hv j hj3]
    simp
  · intro m hm hmj
    rw [wrrSelect, if_neg hlen0]
    simp only []
    rw [hres]
    rw [htw]
    simp only []
    rw [if_neg (by omega)]
    simp only [if_neg hmj]
    exact hv m hm
  · intro m hm
    rw [wrrSelect, if_neg hlen0]
    simp only []
    rw [hres]
    rw [htw]
    simp only []
    rw [if_neg (by omega)]
    have hmj : m ≠ j := by omega
    simp only [if_neg hmj]
    have h := f3 m (by simpa using hm)
    exact h

/-- Invariant of the WRR run on a fixed positive-weight candidate list:
after any number of selections, each position's `current` equals
`(steps so far) · weight − totalWeight · (times selected)`, stays
strictly above `−totalWeight`, and the selection counts sum to the
step count. -/
theorem wrrRun_inv (bs : List SBackend) (hw : ∀ b ∈ bs, 1 ≤ b.weight) (hne : bs ≠ []) :
    ∀ (n t : Nat) (cur : Nat → Int) (counts : List Nat),
    counts.length = bs.length →
    (∀ m, m < bs.length →
      cur m = (t : Int) * (bs.getD m default).weight - sumW bs * (counts.getD m 0 : Int)) →
    (∀ m, m < bs.length → -(sumW bs) < cur m) →
    (∑ m ∈ Finset.range bs.length, (counts.getD m 0 : Int)) = (t : Int) →
    ((wrrRun bs n cur counts).2.length = bs.length ∧
     (∀ m, m < bs.length →
       (wrrRun bs n cur counts).1 m = ((t + n : Nat) : Int) * (bs.getD m default).weight
         - sumW bs * ((wrrRun bs n cur counts).2.getD m 0 : Int)) ∧
     (∀ m, m < bs.length → -(sumW bs) < (wrrRun bs n cur counts).1 m) ∧
     (∑ m ∈ Finset.range bs.length, ((wrrRun bs n cur counts).2.getD m 0 : Int))
       = ((t + n : Nat) : Int)) := by
  intro n
  induction n with
  | zero =>
    intro t cur counts h1 h2 h3 h4
    simp only [wrrRun, Nat.add_zero]
    exact ⟨h1, h2, h3, h4⟩
  | succ n ihn =>
    intro t cur counts h1 h2 h3 h4
    have hwm : ∀ m, m < bs.length → 1 ≤ (bs.getD m default).weight := by
      intro m hm
      have hmem : bs.getD m default ∈ bs := by
        rw [List.getD_eq_getElem _ _ hm]
        exact List.getElem_mem _
      exact hw _ hmem
    have hW : 1 ≤ sumW bs := sumW_pos bs hw hne
    rcases wrrSelect_step bs cur hw hne with ⟨j, hj, hjlen, hmaxi, hcj, hcm, hcout⟩
    have hsum0 : (∑ m ∈ Finset.range bs.length, cur m) = 0 := by
      have he : ∀ m ∈ Finset.range bs.length,
          cur m = (t : Int) * (bs.getD m default).weight
            - sumW bs * (counts.getD m 0 : Int) := by
        intro m hm
        exact h2 m (Finset.mem_range.mp hm)
      rw [Finset.sum_congr rfl he, Finset.sum_sub_distrib, ← Finset.mul_sum,
        ← Finset.mul_sum, h4]
      have hws : (∑ m ∈ Finset.range bs.length, (bs.getD m default).weight) = sumW bs := by
        rw [sumW, list_sum_eq_range_sum (bs.map (fun b => b.weight)) 0, List.length_map]
        apply Finset.sum_congr rfl
        intro m hm
        have hm2 := Finset.mem_range.mp hm
        rw [List.getD_eq_getElem _ _ hm2]
        rw [List.getD_eq_getElem _ _ (by simpa using hm2)]
        simp
      rw [hws]
      ring
    have hex : ∃ m0, m0 < bs.length ∧ 0 ≤ cur m0 := by
      by_contra hno
      push_neg at hno
      have hlt : (∑ m ∈ Finset.range bs.length, cur m)
          < ∑ m ∈ Finset.range bs.length, (0 : Int) := by
        apply Finset.sum_lt_sum_of_nonempty
        · refine ⟨0, Finset.mem_range.mpr ?_⟩
          have : ¬ bs.length = 0 := by simpa using (List.length_eq_zero.not.mpr hne)
          omega
        · intro m hm
          exact hno m (Finset.mem_range.mp hm)
      simp only [Finset.sum_const_zero] at hlt
      omega
    have hjval : -(sumW bs) < (wrrSelect bs cur).2 j := by
      rcases hex with ⟨m0, hm0, hge⟩
      have h5 := hmaxi m0 hm0
      have h6 : 1 ≤ (bs.getD m0 default).weight := hwm m0 hm0
      rw [hcj]
      omega
    have hrun : wrrRun bs (n + 1) cur counts
        = wrrRun bs n (wrrSelect bs cur).2 (counts.set j (counts.getD j 0 + 1)) := by
      rw [wrrRun]
      rw [hj]
    have h1s : (counts.set j (counts.getD j 0 + 1)).length = bs.length := by
      rw [List.length_set]
      exact h1
    have h2s : ∀ m, m < bs.length →
        (wrrSelect bs cur).2 m = ((t + 1 : Nat) : Int) * (bs.getD m default).weight
          - sumW bs * (((counts.set j (counts.getD j 0 + 1)).getD m 0 : Nat) : Int) := by
      intro m hm
      by_cases hmj : m = j
      · subst hmj
        rw [hcj, getD_set_self _ _ _ (by omega), h2 m hm]
        push_cast
        ring
      · rw [hcm m hm hmj, getD_set_other _ _ _ _ hmj, h2 m hm]
        push_cast
        ring
    have h3s : ∀ m, m < bs.length → -(sumW bs) < (wrrSelect bs cur).2 m := by
      intro m hm
      by_cases hmj : m = j
      · subst hmj
        exact hjval
      · rw [hcm m hm hmj]
        have hb := h3 m hm
        have hwb := hwm m hm
        omega
    have h4s : (∑ m ∈ Finset.range bs.length,
        (((counts.set j (counts.getD j 0 + 1)).getD m 0 : Nat) : Int))
          = ((t + 1 : Nat) : Int) := by
      have he : ∀ m ∈ Finset.range bs.length,
          (((counts.set j (counts.getD j 0 + 1)).getD m 0 : Nat) : Int)
            = (counts.getD m 0 : Int) + (if m = j then (1 : Int) else 0) := by
        intro m hm
        by_cases hmj : m = j
        · subst hmj
          rw [getD_set_self _ _ _ (by omega)]
          push_cast
          simp
        · rw [getD_set_other _ _ _ _ hmj]
          simp [hmj]
      rw [Finset.sum_congr rfl he, Finset.sum_add_distrib, h4,
        Finset.sum_ite_eq' (Finset.range bs.length) j (fun _ => (1 : Int)),
        if_pos (Finset.mem_range.mpr hjlen)]
      push_cast
      ring
    rcases ihn (t + 1) (wrrSelect bs cur).2 (counts.set j (counts.getD j 0 + 1))
        h1s h2s h3s h4s with ⟨g1, g2, g3, g4⟩
    have harr : t + (n + 1) = (t + 1) + n := by omega
    rw [hrun, harr]
    exact ⟨g1, g2, g3, g4⟩

/-- **C5** Smooth-WRR proportionality: on a fixed candidate list with
positive integer weights summing to `W`, any run of `s·W` consecutive
`SelectBackend` calls (from the strategy's fresh all-zero `current`
map) selects position `i` exactly `s · wᵢ` times. -/
theorem c5_smooth_wrr_proportionality (bs : List SBackend)
    (hw : ∀ b ∈ bs, 1 ≤ b.weight) (hne : bs ≠ []) (s : Nat) (hs : 1 ≤ s)
    (i : Nat) (hi : i < bs.length) :
    (((wrrRun bs (s * (sumW bs).toNat) (fun _ => 0)
        (List.replicate bs.length 0)).2.getD i 0 : Nat) : Int)
      = (s : Int) * (bs.getD i default).weight := by
  have hW : 1 ≤ sumW bs := sumW_pos bs hw hne
  have hwm : ∀ m, m < bs.length → 1 ≤ (bs.getD m default).weight := by
    intro m hm
    have hmem : bs.getD m default ∈ bs := by
      rw [List.getD_eq_getElem _ _ hm]
      exact List.getElem_mem _
    exact hw _ hmem
  rcases wrrRun_inv bs hw hne (s * (sumW bs).toNat) 0 (fun _ => 0)
      (List.replicate bs.length 0) (by simp)
      (by
        intro m hm
        rw [getD_replicate_zero]
        push_cast
        ring)
      (by
        intro m hm
        show -(sumW bs) < 0
        omega)
      (by
        have he : ∀ m ∈ Finset.range bs.length,
            ((List.replicate bs.length (0 : Nat)).getD m 0 : Int) = 0 := by
          intro m _
          rw [getD_replicate_zero]
          rfl
        rw [Finset.sum_congr rfl he]
        simp) with ⟨g1, g2, g3, g4⟩
  have hN : ((0 + s * (sumW bs).toNat : Nat) : Int) = (s : Int) * sumW bs := by
    push_cast [Int.toNat_of_nonneg (by omega : (0 : Int) ≤ sumW bs)]
    ring
  rw [hN] at g2 g4
  -- pointwise: count m ≤ s * w m
  set r := wrrRun bs (s * (sumW bs).toNat) (fun _ => 0) (List.replicate bs.length 0) with hr
  have hle : ∀ m, m < bs.length →
      ((r.2.getD m 0 : Nat) : Int) ≤ (s : Int) * (bs.getD m default).weight := by
    intro m hm
    have hf := g2 m hm
    have hb := g3 m hm
    have hcur : r.1 m = sumW bs *
        ((s : Int) * (bs.getD m default).weight - (r.2.getD m 0 : Int)) := by
      rw [hf]
      ring
    have hgt : sumW bs * (-1 : Int) < sumW bs *
        ((s : Int) * (bs.getD m default).weight - (r.2.getD m 0 : Int)) := by
      rw [← hcur]
      omega
    have hx := lt_of_mul_lt_mul_left hgt (by omega : (0 : Int) ≤ sumW bs)
    omega
  -- sums equal
  have hsw : (∑ m ∈ Finset.range bs.length, (s : Int) * (bs.getD m default).weight)
      = (s : Int) * sumW bs := by
    rw [← Finset.mul_sum]
    have hws : (∑ m ∈ Finset.range bs.length, (bs.getD m default).weight) = sumW bs := by
      rw [sumW, list_sum_eq_range_sum (bs.map (fun b => b.weight)) 0, List.length_map]
      apply Finset.sum_congr rfl
      intro m hm
      have hm2 := Finset.mem_range.mp hm
      rw [List.getD_eq_getElem _ _ hm2]
      rw [List.getD_eq_getElem _ _ (by simpa using hm2)]
      simp
    rw [hws]
  have heq := (Finset.sum_eq_sum_iff_of_le
      (fun m hm => hle m (Finset.mem_range.mp hm))).mp (by rw [g4, hsw])
  exact heq i (Finset.mem_range.mpr hi)

set_option maxRecDepth 4000 in
/-- Witness for C5: weights `(5, 1)` over `6 = 1·(5+1)` selections give
selection counts `(5, 1)`. -/
theorem c5_smooth_wrr_proportionality_witness :
    (((wrrRun [⟨"a", true, 0, 5, 0, false⟩, ⟨"b", true, 0, 1, 0, false⟩]
          (1 * (sumW [⟨"a", true, 0, 5, 0, false⟩, ⟨"b", true, 0, 1, 0, false⟩]).toNat)
          (fun _ => 0) (List.replicate 2 0)).2.getD 0 0 : Nat) : Int)
        = (1 : Int) * 5 ∧
    (((wrrRun [⟨"a", true, 0, 5, 0, false⟩, ⟨"b", true, 0, 1, 0, false⟩]
          (1 * (sumW [⟨"a", true, 0, 5, 0, false⟩, ⟨"b", true, 0, 1, 0, false⟩]).toNat)
          (fun _ => 0) (List.replicate 2 0)).2.getD 1 0 : Nat) : Int)
        = (1 : Int) * 1 := by
  constructor
  · exact c5_smooth_wrr_proportionality
      [⟨"a", true, 0, 5, 0, false⟩, ⟨"b", true, 0, 1, 0, false⟩]
      (by decide) (by decide) 1 (le_refl _) 0 (by decide)
  · exact c5_smooth_wrr_proportionality
      [⟨"a", true, 0, 5, 0, false⟩, ⟨"b", true, 0, 1, 0, false⟩]
      (by decide) (by decide) 1 (le_refl _) 1 (by decide)

set_option maxRecDepth 10000 in
/-- **C2** (counterexample) The consistent-hash strategy violates the
contract: with the ring already built from `{http://a, http://b}` (one
virtual node), a call with candidate list `[http://b]` and key `"ne"`
returns `http://a`, which is not an element of that call's candidate
list. -/
theorem c2_strategy_contract_counterexample :
    (chSelect (chSetKey (chRebuild (chNew 1) [⟨"http://a", true, 0, 1, 0, false⟩,
          ⟨"http://b", true, 0, 1, 0, false⟩]) "ne")
        [⟨"http://b", true, 0, 1, 0, false⟩]).1 =
      some ⟨"http://a", true, 0, 1, 0, false⟩ ∧
    (⟨"http://a", true, 0, 1, 0, false⟩ : SBackend) ∉
      [(⟨"http://b", true, 0, 1, 0, false⟩ : SBackend)] := by
  exact ⟨by decide, by decide⟩

/-- **C2** (amended) Strategy contract: RoundRobin, Random (with an
in-range generator), LeastConn, LeastResponse and WeightedRoundRobin
always return an element (for WRR: a valid position) of the call's
candidate list; RoundRobin, Random and LeastResponse return null only
on an empty candidate list, LeastConn additionally in the unreachable
state where every candidate holds at least `math.MaxInt32` active
connections (the scan's initial bound), and WRR exactly when no
candidate has positive weight.  ConsistentHash instead selects from its
ring: a selection on a built ring is an element of the backend list the
ring was built from (the candidates of the building call), not
necessarily of the current call's candidates. -/
theorem c2_strategy_contract_amended :
    (∀ (st : Nat) (bs : List SBackend) (b : SBackend),
      (rrSelect st bs).1 = some b → b ∈ bs) ∧
    (∀ (st : Nat) (bs : List SBackend), (rrSelect st bs).1 = none → bs = []) ∧
    (∀ (f : Nat → Nat) (bs : List SBackend) (b : SBackend),
      randomSelect f bs = some b → b ∈ bs) ∧
    (∀ (f : Nat → Nat) (bs : List SBackend), (∀ n, 0 < n → f n < n) →
      randomSelect f bs = none → bs = []) ∧
    (∀ (bs : List SBackend) (b : SBackend), leastConnSelect bs = some b → b ∈ bs) ∧
    (∀ (bs : List SBackend), leastConnSelect bs = none →
      bs = [] ∨ ∀ b ∈ bs, maxInt32 ≤ (b.conns : Int)) ∧
    (∀ (bs : List SBackend) (b : SBackend), leastResponseSelect bs = some b → b ∈ bs) ∧
    (∀ (bs : List SBackend), leastResponseSelect bs = none → bs = []) ∧
    (∀ (bs : List SBackend) (cur : Nat → Int) (j : Nat),
      (wrrSelect bs cur).1 = some j → j < bs.length) ∧
    (∀ (bs : List SBackend) (cur : Nat → Int),
      (wrrSelect bs cur).1 = none → ∀ b ∈ bs, b.weight ≤ 0) ∧
    (∀ (s : CHState) (bs0 bs : List SBackend) (b : SBackend),
      s.ring = buildRing bs0 s.virtualNodes → s.ring.positions ≠ [] →
      (chSelect s bs).1 = some b → b ∈ bs0) ∧
    (∀ (s : CHState) (bs : List SBackend) (b : SBackend),
      s.ring.positions = [] → (chSelect s bs).1 = some b → b ∈ bs) := by
  refine ⟨?_, ?_, ?_, ?_, ?_, ?_, ?_, ?_, ?_, ?_, ?_, ?_⟩
  · intro st bs b h
    rw [rrSelect] at h
    split at h
    · cases h
    · exact List.get?_mem h
  · intro st bs h
    rw [rrSelect] at h
    split at h
    · rename_i hz
      exact List.length_eq_zero.mp hz
    · rename_i hz
      exfalso
      simp only [] at h
      have hlt : ((((st + 1) % U64) + U64 - 1) % U64) % bs.length < bs.length :=
        Nat.mod_lt _ (by omega)
      rw [List.get?_eq_get hlt] at h
      cases h
  · intro f bs b h
    rw [randomSelect] at h
    split at h
    · cases h
    · exact List.get?_mem h
  · intro f bs hf h
    rw [randomSelect] at h
    split at h
    · rename_i hz
      exact List.length_eq_zero.mp hz
    · rename_i hz
      exfalso
      rw [List.get?_eq_get (hf _ (by omega))] at h
      cases h
  · intro bs b h
    rw [leastConnSelect] at h
    split at h
    · cases h
    · rcases leastConnGo_some_mem _ _ _ _ h with h2 | h2
      · exact h2
      · cases h2
  · intro bs h
    rw [leastConnSelect] at h
    split at h
    · rename_i hz
      exact Or.inl (List.length_eq_zero.mp hz)
    · exact Or.inr (leastConnGo_none _ _ _ h).2
  · intro bs b h
    rw [leastResponseSelect] at h
    split at h
    · cases h
    · rcases leastResponseGo_some_mem _ _ _ _ h with h2 | h2
      · exact h2
      · cases h2
  · intro bs h
    rw [leastResponseSelect] at h
    split at h
    · rename_i hz
      exact List.length_eq_zero.mp hz
    · rename_i hz
      exfalso
      cases bs with
      | nil => exact hz rfl
      | cons x rest =>
        rw [leastResponseGo] at h
        simp only [] at h
        split at h
        · cases h
        · exact leastResponseGo_some_ne_none _ _ _ h
  · intro bs cur j h
    rw [wrrSelect] at h
    split at h
    · cases h
    · simp only [] at h
      split at h
      · cases h
      · rename_i j0 hj0
        split at h
        · cases h
        · cases h
          rcases wrrScan_some _ _ _ _ _ _ hj0 with h2 | h2
          · cases h2
          · omega
  · intro bs cur h
    rw [wrrSelect] at h
    split at h
    · rename_i hz
      intro b hb
      rw [List.length_eq_zero.mp hz] at hb
      cases hb
    · simp only [] at h
      split at h
      · rename_i hnone
        exact (wrrScan_none _ _ _ _ _ hnone).2
      · rename_i j0 hj0
        split at h
        · rename_i htw
          exfalso
          have := wrrScan_tw_of_some _ _ _ _ _ hj0
          omega
        · cases h
  · intro s bs0 bs b hring hne h
    rw [chSelect] at h
    rw [if_neg (by simpa using (List.length_eq_zero.not.mpr hne))] at h
    rw [hring] at h
    exact ringLookup_mem _ _ _ _ h
  · intro s bs b hempty h
    rw [chSelect] at h
    rw [if_pos (by simp [hempty])] at h
    exact ringLookup_mem _ _ _ _ h

set_option maxRecDepth 10000 in
/-- Witness for the amended C2: concrete selections of every strategy
land inside the relevant candidate (or ring) list. -/
theorem c2_strategy_contract_amended_witness :
    ((⟨"a", true, 0, 1, 0, false⟩ : SBackend) ∈
        [(⟨"a", true, 0, 1, 0, false⟩ : SBackend), ⟨"b", true, 2, 1, 0, false⟩]) ∧
    (([] : List SBackend) = []) ∧
    ((⟨"b", true, 2, 1, 0, false⟩ : SBackend) ∈
        [(⟨"a", true, 0, 1, 0, false⟩ : SBackend), ⟨"b", true, 2, 1, 0, false⟩]) ∧
    ((⟨"a", true, 0, 1, 0, false⟩ : SBackend) ∈
        [(⟨"a", true, 0, 1, 0, false⟩ : SBackend), ⟨"b", true, 2, 1, 0, false⟩]) ∧
    ((⟨"b", true, 2, 1, 0, false⟩ : SBackend) ∈
        [(⟨"b", true, 2, 1, 0, false⟩ : SBackend), ⟨"a", true, 5, 1, 0, false⟩]) ∧
    ((0 : Nat) < ([(⟨"a", true, 0, 3, 0, false⟩ : SBackend),
        ⟨"b", true, 0, 1, 0, false⟩] : List SBackend).length) ∧
    ((⟨"http://b", true, 0, 1, 0, false⟩ : SBackend) ∈
        [(⟨"http://a", true, 0, 1, 0, false⟩ : SBackend),
         ⟨"http://b", true, 0, 1, 0, false⟩]) := by
  refine ⟨?_, ?_, ?_, ?_, ?_, ?_, ?_⟩
  · exact c2_strategy_contract_amended.1 0
      [⟨"a", true, 0, 1, 0, false⟩, ⟨"b", true, 2, 1, 0, false⟩]
      ⟨"a", true, 0, 1, 0, false⟩ (by decide)
  · exact c2_strategy_contract_amended.2.1 0 [] (by decide)
  · exact c2_strategy_contract_amended.2.2.1 (fun _ => 1)
      [⟨"a", true, 0, 1, 0, false⟩, ⟨"b", true, 2, 1, 0, false⟩]
      ⟨"b", true, 2, 1, 0, false⟩ (by decide)
  · exact c2_strategy_contract_amended.2.2.2.2.1
      [⟨"a", true, 0, 1, 0, false⟩, ⟨"b", true, 2, 1, 0, false⟩]
      ⟨"a", true, 0, 1, 0, false⟩ (by decide)
  · exact c2_strategy_contract_amended.2.2.2.2.2.2.1
      [⟨"b", true, 2, 1, 0, false⟩, ⟨"a", true, 5, 1, 0, false⟩]
      ⟨"b", true, 2, 1, 0, false⟩ (by decide)
  · exact c2_strategy_contract_amended.2.2.2.2.2.2.2.2.1
      [⟨"a", true, 0, 3, 0, false⟩, ⟨"b", true, 0, 1, 0, false⟩]
      (fun _ => 0) 0 (by decide)
  · exact c2_strategy_contract_amended.2.2.2.2.2.2.2.2.2.2.1
      (chRebuild (chNew 1) [⟨"http://a", true, 0, 1, 0, false⟩,
        ⟨"http://b", true, 0, 1, 0, false⟩])
      [⟨"http://a", true, 0, 1, 0, false⟩, ⟨"http://b", true, 0, 1, 0, false⟩]
      [⟨"http://a", true, 0, 1, 0, false⟩]
      ⟨"http://b", true, 0, 1, 0, false⟩ rfl (by decide) (by decide)

/-- When some scanned backend reads a zero EWMA, the least-response
scan returns the first such backend, whatever the accumulator. -/
theorem lrGo_zero : ∀ (l : List SBackend) (acc : Option SBackend) (best : Int),
    (∃ b ∈ l, b.ewmaTime = 0) →
    leastResponseGo l acc best = l.find? (fun b => b.ewmaTime == 0) := by
  intro l
  induction l with
  | nil =>
    intro acc best h
    rcases h with ⟨b, hb, _⟩
    cases hb
  | cons x rest ih =>
    intro acc best h
    rw [leastResponseGo]
    simp only []
    by_cases hx : x.ewmaTime = 0
    · rw [if_pos hx, List.find?_cons_of_pos _ (by simp [hx])]
    · rw [if_neg hx, List.find?_cons_of_neg _ (by simp [hx])]
      have h2 : ∃ b ∈ rest, b.ewmaTime = 0 := by
        rcases h with ⟨b, hb, hz⟩
        rcases List.mem_cons.mp hb with rfl | hb2
        · exact absurd hz hx
        · exact ⟨b, hb2, hz⟩
      cases acc with
      | none => exact ih _ _ h2
      | some c =>
        simp only []
        split
        · exact ih _ _ h2
        · exact ih _ _ h2

/-- A left fold by `min` never exceeds its initial value. -/
theorem foldl_min_le_init (l : List Int) : ∀ (a : Int), l.foldl min a ≤ a := by
  induction l with
  | nil => intro a; exact le_refl _
  | cons y l ih =>
    intro a
    calc l.foldl min (min a y) ≤ min a y := ih _
      _ ≤ a := min_le_left _ _

/-- A `min` against the initial value commutes out of a left fold. -/
theorem foldl_min_min (l : List Int) : ∀ (a x : Int),
    l.foldl min (min a x) = min (l.foldl min a) x := by
  induction l with
  | nil => intro a x; rfl
  | cons y l ih =>
    intro a x
    show l.foldl min (min (min a x) y) = min ((y :: l).foldl min a) x
    rw [min_right_comm a x y, ih (min a y) x]
    rfl

/-- `find?` skips a head that fails the predicate. -/
theorem find?_cons_skip {α : Type} (p : α → Bool) (a : α) (l : List α)
    (h : ¬ p a = true) : (a :: l).find? p = l.find? p := by
  rw [List.find?]
  simp only [Bool.not_eq_true] at h
  rw [h]

/-- `find?` returns a head that satisfies the predicate. -/
theorem find?_cons_hit {α : Type} (p : α → Bool) (a : α) (l : List α)
    (h : p a = true) : (a :: l).find? p = some a := by
  rw [List.find?, h]

/-- With no zero-EWMA backend in the scan, the least-response scan from
accumulator `c` returns the first of `c :: l` attaining the minimal
score. -/
theorem lrGo_min : ∀ (l : List SBackend) (c : SBackend),
    (∀ b ∈ l, b.ewmaTime ≠ 0) →
    leastResponseGo l (some c) (lrScore c) =
      (c :: l).find? (fun b => lrScore b == (l.map lrScore).foldl min (lrScore c)) := by
  intro l
  induction l with
  | nil =>
    intro c _
    simp [leastResponseGo, List.find?]
  | cons x rest ih =>
    intro c hnz
    have hx : x.ewmaTime ≠ 0 := hnz x (List.mem_cons_self _ _)
    have hrest : ∀ b ∈ rest, b.ewmaTime ≠ 0 := fun b hb => hnz b (List.mem_cons_of_mem _ hb)
    rw [leastResponseGo]
    simp only []
    rw [if_neg hx]
    have hsc : x.ewmaTime * ((x.conns : Int) + 1) = lrScore x := rfl
    rw [hsc]
    by_cases hlt : lrScore x < lrScore c
    · rw [if_pos hlt, ih x hrest]
      have hM : ((x :: rest).map lrScore).foldl min (lrScore c)
          = (rest.map lrScore).foldl min (lrScore x) := by
        show (rest.map lrScore).foldl min (min (lrScore c) (lrScore x)) = _
        rw [min_eq_right (le_of_lt hlt)]
      rw [hM]
      have hc : ¬ ((fun b => lrScore b == (rest.map lrScore).foldl min (lrScore x)) c = true) := by
        simp only [beq_iff_eq]
        have h1 : (rest.map lrScore).foldl min (lrScore x) ≤ lrScore x :=
          foldl_min_le_init _ _
        omega
      rw [find?_cons_skip _ c _ hc]
    · rw [if_neg hlt, ih c hrest]
      have hM : ((x :: rest).map lrScore).foldl min (lrScore c)
          = (rest.map lrScore).foldl min (lrScore c) := by
        show (rest.map lrScore).foldl min (min (lrScore c) (lrScore x)) = _
        rw [min_eq_left (by omega)]
      rw [hM]
      by_cases hc : ((fun b => lrScore b == (rest.map lrScore).foldl min (lrScore c)) c = true)
      · rw [find?_cons_hit _ c _ hc, find?_cons_hit _ c _ hc]
      · rw [find?_cons_skip _ c _ hc, find?_cons_skip _ c _ hc]
        have hx2 : ¬ ((fun b => lrScore b == (rest.map lrScore).foldl min (lrScore c)) x
            = true) := by
          simp only [beq_iff_eq] at hc ⊢
          have h1 : (rest.map lrScore).foldl min (lrScore c) ≤ lrScore c :=
            foldl_min_le_init _ _
          omega
        rw [find?_cons_skip _ x _ hx2]

/-- **C8** (counterexample) A backend with a recorded zero-duration
sample (`hasEWMA = true`, stored EWMA 0 — reachable via
`RecordResponse(0)`, since `time.Since` can return 0) reads
`EWMATime() = 0`, so the strategy returns it even though a later
candidate is the first one with *no sample recorded*: the claim's
"first candidate with no sample" is not returned. -/
theorem c8_least_response_counterexample :
    leastResponseSelect [⟨"b0", true, 0, 1, 0, true⟩, ⟨"b1", true, 0, 1, 0, false⟩] =
      some ⟨"b0", true, 0, 1, 0, true⟩ ∧
    (⟨"b0", true, 0, 1, 0, true⟩ : SBackend).hasEWMA = true ∧
    (⟨"b1", true, 0, 1, 0, false⟩ : SBackend).hasEWMA = false ∧
    leastResponseSelect [⟨"b0", true, 0, 1, 0, true⟩, ⟨"b1", true, 0, 1, 0, false⟩] ≠
      some ⟨"b1", true, 0, 1, 0, false⟩ := by
  refine ⟨by decide, by decide, by decide, by decide⟩

/-- **C8** (amended) LeastResponse selection rule: for every candidate
list, the strategy returns the first candidate whose `EWMATime()`
reads zero (no sample recorded, or a recorded zero EWMA); otherwise the
candidate minimising `ewmaLatency × (activeConnections + 1)`, ties
broken by first in input order — i.e. the selection coincides with the
specification function `lrSpec`. -/
theorem c8_least_response_selection_rule (bs : List SBackend) :
    leastResponseSelect bs = lrSpec bs := by
  cases bs with
  | nil => rfl
  | cons x rest =>
    by_cases hz : ∃ b ∈ x :: rest, b.ewmaTime = 0
    · rw [leastResponseSelect, if_neg (by simp)]
      rw [lrGo_zero _ _ _ hz]
      rw [lrSpec]
      rcases hfind : (x :: rest).find? (fun b => b.ewmaTime == 0) with _ | b
      · exfalso
        rcases hz with ⟨b, hb, hzz⟩
        have h3 := List.find?_eq_none.mp hfind b hb
        simp [hzz] at h3
      · simp [hfind]
    · push_neg at hz
      rw [leastResponseSelect, if_neg (by simp)]
      rw [leastResponseGo]
      simp only []
      rw [if_neg (hz x (List.mem_cons_self _ _))]
      have hsc : x.ewmaTime * ((x.conns : Int) + 1) = lrScore x := rfl
      rw [hsc]
      rw [lrGo_min rest x (fun b hb => hz b (List.mem_cons_of_mem _ hb))]
      rw [lrSpec]
      have hfind : (x :: rest).find? (fun b => b.ewmaTime == 0) = none := by
        apply List.find?_eq_none.mpr
        intro b hb
        simp [hz b hb]
      rw [hfind]
      rfl

/-- **C6** Consistent-hash determinism: for a fixed built ring, the
selection after `SetKey(k)` is a pure function of the key `k` alone —
two runs of `SetKey(k); SelectBackend` agree for every key, whatever
the candidate lists, prior key hashes or other strategy state; and on
an empty ring, two strategies with equal virtual-node counts given
equal backend lists also agree (the lazily built rings coincide). -/
theorem c6_consistent_hash_determinism (s1 s2 : CHState) (key : String)
    (cs1 cs2 : List SBackend) :
    (s1.ring = s2.ring → s1.ring.positions ≠ [] →
      (chSelect (chSetKey s1 key) cs1).1 = (chSelect (chSetKey s2 key) cs2).1 ∧
      (chSelect (chSetKey s1 key) cs1).1 = ringLookup s1.ring (crc32Str key)) ∧
    (s1.ring.positions = [] → s2.ring.positions = [] →
      s1.virtualNodes = s2.virtualNodes → cs1 = cs2 →
      (chSelect (chSetKey s1 key) cs1).1 = (chSelect (chSetKey s2 key) cs2).1) := by
  constructor
  · intro hring hne
    have hlen : ¬ (s1.ring.positions.length = 0) := by
      simpa using (List.length_eq_zero.not.mpr hne)
    have hlen2 : ¬ (s2.ring.positions.length = 0) := by
      rw [← hring]; exact hlen
    constructor
    · simp [chSelect, chSetKey, hlen, hlen2, hring]
    · simp [chSelect, chSetKey, hlen]
  · intro h1 h2 hv hcs
    have hl1 : s1.ring.positions.length = 0 := by simp [h1]
    have hl2 : s2.ring.positions.length = 0 := by simp [h2]
    simp [chSelect, chSetKey, hl1, hl2, hv, hcs]

/-- Witness for C6: on the ring built from `{http://a, http://b}` with
one virtual node, two strategy states with different stored key hashes
and different candidate lists select identically for the key
`192.168.1.100`. -/
theorem c6_consistent_hash_determinism_witness :
    (chSelect (chSetKey (chRebuild (chNew 1) [⟨"http://a", true, 0, 1, 0, false⟩,
          ⟨"http://b", true, 0, 1, 0, false⟩]) "192.168.1.100")
        [⟨"http://a", true, 0, 1, 0, false⟩]).1 =
      (chSelect (chSetKey { chRebuild (chNew 1) [⟨"http://a", true, 0, 1, 0, false⟩,
            ⟨"http://b", true, 0, 1, 0, false⟩] with hashKey := 7 } "192.168.1.100") []).1 ∧
    (chSelect (chSetKey (chRebuild (chNew 1) [⟨"http://a", true, 0, 1, 0, false⟩,
          ⟨"http://b", true, 0, 1, 0, false⟩]) "192.168.1.100")
        [⟨"http://a", true, 0, 1, 0, false⟩]).1 =
      ringLookup (chRebuild (chNew 1) [⟨"http://a", true, 0, 1, 0, false⟩,
          ⟨"http://b", true, 0, 1, 0, false⟩]).ring (crc32Str "192.168.1.100") :=
  (c6_consistent_hash_determinism
      (chRebuild (chNew 1) [⟨"http://a", true, 0, 1, 0, false⟩,
        ⟨"http://b", true, 0, 1, 0, false⟩])
      { chRebuild (chNew 1) [⟨"http://a", true, 0, 1, 0, false⟩,
          ⟨"http://b", true, 0, 1, 0, false⟩] with hashKey := 7 }
      "192.168.1.100" [⟨"http://a", true, 0, 1, 0, false⟩] []).1 rfl
    (by set_option maxRecDepth 10000 in decide)

/-- Witness for C7: the 4th call (0-based) over three backends returns
`candidates[4 mod 3]`. -/
theorem c7_round_robin_rotation_witness :
    (rrRun [⟨"a", true, 0, 1, 0, false⟩, ⟨"b", true, 0, 1, 0, false⟩,
            ⟨"c", true, 0, 1, 0, false⟩] 0 5).getD 4 none =
      [(⟨"a", true, 0, 1, 0, false⟩ : SBackend), ⟨"b", true, 0, 1, 0, false⟩,
       ⟨"c", true, 0, 1, 0, false⟩].get? (4 % 3) :=
  c7_round_robin_rotation.1 _ 4 (by decide) (by decide)

end LB
